import Mathlib

/-!
Verification development for the uxsdcxx XSD-to-C++ code generator
(`uxsdcxx.py`).  The Python source is shallowly embedded: each string-building
emitter becomes a Lean function producing the same text (braces in emitted C++
text are written with the escapes \x7b and \x7d), stateful traversals become
explicit state passing with a fuel parameter standing in for Python's
guard-based termination, and Python code that can raise becomes
Option-returning code.
-/

set_option maxRecDepth 16384

namespace Uxsd

/-- Python `sep.join(xs)`: the empty string for `[]`, otherwise the elements
interleaved with `sep`. -/
def joinSep (sep : String) : List String → String
  | [] => ""
  | [x] => x
  | x :: xs => x ++ sep ++ joinSep sep xs

/-- `"\t" * n`. -/
def tabs (n : Nat) : String :=
  String.mk (List.replicate n '\t')

/-- Python `x.split("\n")` on the character list: `[[]]` for the empty
string, with a trailing `'\n'` contributing a final empty line. -/
def splitLines : List Char → List (List Char)
  | [] => [[]]
  | c :: rest =>
    if c = '\n' then [] :: splitLines rest
    else match splitLines rest with
      | l :: ls => (c :: l) :: ls
      | [] => [[c]]

/-- Embedding of `indent(x, n)` (uxsdcxx.py line 195): prefix every nonempty
line of `x` with `n` tabs. -/
def indent (x : String) (n : Nat) : String :=
  joinSep "\n" ((splitLines x.toList).map (fun l =>
    if l = [] then "" else tabs n ++ String.mk l))

/-- Embedding of `to_token` (line 189): replace characters outside
`[a-zA-Z0-9_]` with `_`, then uppercase. -/
def to_token (x : String) : String :=
  String.mk (x.toList.map (fun c => if c.isAlphanum || c = '_' then c.toUpper else '_'))

/-- Embedding of `to_union_member_type` (line 192): `as_` plus the same
character substitution, not uppercased. -/
def to_union_member_type (x : String) : String :=
  "as_" ++ String.mk (x.toList.map (fun c => if c.isAlphanum || c = '_' then c else '_'))

/-- The XML-Schema namespace prefix `xs` (line 31). -/
def xsNS : String := "\x7bhttp://www.w3.org/2001/XMLSchema\x7d"

/-- Embedding of the `atomic_builtin_load_formats` dict (lines 54-73); each
entry is the `%s`-template as a function of the input expression.  A lookup of
a name outside the dict (a `KeyError` in Python) is `none`. -/
def atomic_builtin_load_formats (name : String) : Option (String → String) :=
  if name = xsNS ++ "string" then some (fun s => "strdup(" ++ s ++ ")")
  else if name = xsNS ++ "boolean" then some (fun s => "std::strtol(" ++ s ++ ", NULL, 10)")
  else if name = xsNS ++ "float" then some (fun s => "std::strtof(" ++ s ++ ", NULL)")
  else if name = xsNS ++ "decimal" then some (fun s => "std::strtol(" ++ s ++ ", NULL, 10)")
  else if name = xsNS ++ "integer" then some (fun s => "std::strtol(" ++ s ++ ", NULL, 10)")
  else if name = xsNS ++ "nonPositiveInteger" then some (fun s => "std::strtol(" ++ s ++ ", NULL, 10)")
  else if name = xsNS ++ "negativeInteger" then some (fun s => "std::strtol(" ++ s ++ ", NULL, 10)")
  else if name = xsNS ++ "long" then some (fun s => "std::strtoll(" ++ s ++ ", NULL, 10)")
  else if name = xsNS ++ "int" then some (fun s => "std::strtol(" ++ s ++ ", NULL, 10)")
  else if name = xsNS ++ "short" then some (fun s => "std::strtol(" ++ s ++ ", NULL, 10)")
  else if name = xsNS ++ "byte" then some (fun s => "std::strtol(" ++ s ++ ", NULL, 10)")
  else if name = xsNS ++ "nonNegativeInteger" then some (fun s => "std::strtoul(" ++ s ++ ", NULL, 10)")
  else if name = xsNS ++ "unsignedLong" then some (fun s => "std::strtoull(" ++ s ++ ", NULL, 10)")
  else if name = xsNS ++ "unsignedInt" then some (fun s => "std::strtoul(" ++ s ++ ", NULL, 10)")
  else if name = xsNS ++ "unsignedShort" then some (fun s => "std::strtoul(" ++ s ++ ", NULL, 10)")
  else if name = xsNS ++ "unsignedByte" then some (fun s => "std::strtoul(" ++ s ++ ", NULL, 10)")
  else if name = xsNS ++ "positiveInteger" then some (fun s => "std::strtoul(" ++ s ++ ", NULL, 10)")
  else if name = xsNS ++ "double" then some (fun s => "std::strtod(" ++ s ++ ", NULL)")
  else none

/-- Embedding of `cpp_keywords` (lines 75-84). -/
def cpp_keywords : List String :=
  ["alignas", "alignof", "and", "and_eq", "asm", "atomic_cancel", "atomic_commit", "atomic_noexcept",
   "auto", "bitand", "bitor", "bool", "break", "case", "catch", "char", "char8_t", "char16_t", "char32_t", "class",
   "compl", "concept", "const", "consteval", "constexpr", "const_cast", "continue", "co_await", "co_return",
   "co_yield", "decltype", "default", "delete", "do", "double", "dynamic_cast", "else", "enum", "explicit",
   "export", "extern", "false", "float", "for", "friend", "goto", "if", "inline", "int", "long", "mutable",
   "namespace", "new", "noexcept", "not", "not_eq", "nullptr", "operator", "or", "or_eq", "private",
   "protected", "public", "reflexpr", "register", "reinterpret_cast", "requires", "return", "short", "signed",
   "sizeof", "static", "static_assert", "static_cast", "struct", "switch", "synchronized", "template", "this",
   "thread_local", "throw", "true", "try", "typedef", "typeid", "typename", "union", "unsigned", "using",
   "virtual", "void", "volatile", "wchar_t", "while", "xor", "xor_eq"]

/-- The warning text printed to stderr by `checked` (line 180). -/
def kw_warning (s : String) : String :=
  s ++ " is a C++ keyword. Changing it to " ++ s ++ "_."

/-- Embedding of `checked` (lines 178-182).  The Python function prints the
warning to stderr as a side effect; here the second component collects the
warnings emitted by this single call. -/
def checked (x : String) : String × List String :=
  if x ∈ cpp_keywords then (x ++ "_", [kw_warning x]) else (x, [])

/-! ## C8: the `all`-model optional mask (`_gen_count_all`, lines 487-508) -/

/-- A child element of an `all` group as `_gen_count_all` consumes it:
`occurs[0]` is `min_occurs`. -/
structure AllChild where
  name : String
  min_occurs : Nat

/-- Embedding of line 505:
`mask = "".join(["1" if x.occurs[0] == 0 else "0" for x in t.child_elements][::-1])`
as the character list of the mask string. -/
def all_mask_chars (cs : List AllChild) : List Char :=
  (cs.map (fun c => if c.min_occurs = 0 then '1' else '0')).reverse

/-- The mask string itself, as spliced into `std::bitset<N>(0b%s)` (line 506). -/
def all_mask_str (cs : List AllChild) : String :=
  String.mk (all_mask_chars cs)

/-- Value of a C++ binary literal whose digit characters, most significant
first, are `l` (the meaning of the emitted `0b<mask>` constant). -/
def bin_lit_val (l : List Char) : Nat :=
  l.foldl (fun acc ch => 2 * acc + (if ch = '1' then 1 else 0)) 0

/-- Little-endian value of a digit-character list (head is bit 0). -/
def bin_lit_val_le (l : List Char) : Nat :=
  l.foldr (fun ch acc => (if ch = '1' then 1 else 0) + 2 * acc) 0

theorem bin_lit_val_reverse (l : List Char) : bin_lit_val l.reverse = bin_lit_val_le l := by
  induction l with
  | nil => rfl
  | cons c l ih =>
    simp only [List.reverse_cons, bin_lit_val, List.foldl_append, List.foldl_cons,
      List.foldl_nil, bin_lit_val_le, List.foldr_cons]
    simp only [bin_lit_val, bin_lit_val_le] at ih
    omega

theorem testBit_bin_lit_val_le (l : List Char) (i : Nat) (h : i < l.length) :
    ((bin_lit_val_le l).testBit i = true) ↔ l.get ⟨i, h⟩ = '1' := by
  induction l generalizing i with
  | nil => simp at h
  | cons c l ih =>
    cases i with
    | zero =>
      simp only [bin_lit_val_le, List.foldr_cons, Nat.testBit_zero, List.get]
      constructor
      · intro hmod
        by_contra hne
        simp only [if_neg hne] at hmod
        simp only [decide_eq_true_eq] at hmod
        omega
      · intro hc
        simp only [if_pos hc, decide_eq_true_eq]
        omega
    | succ i =>
      have hi : i < l.length := by simpa using h
      have step : bin_lit_val_le (c :: l) =
          (if c = '1' then 1 else 0) + 2 * bin_lit_val_le l := rfl
      rw [step, Nat.testBit_succ]
      have hdiv : ((if c = '1' then 1 else 0) + 2 * bin_lit_val_le l) / 2 = bin_lit_val_le l := by
        by_cases hc : c = '1' <;> simp [hc] <;> omega

      rw [hdiv]
      simpa using ih i hi

/-- Claim C8: in the compile-time mask OR-ed into the `all`-model bitset,
bit `i` of the emitted binary constant is set iff child `i` of the flat child
list has `min_occurs = 0`. -/
theorem all_mask_bit_iff (cs : List AllChild) (i : Nat) (h : i < cs.length) :
    ((bin_lit_val (all_mask_chars cs)).testBit i = true) ↔
      (cs.get ⟨i, h⟩).min_occurs = 0 := by
  have hlen : i < (cs.map (fun c => if c.min_occurs = 0 then '1' else '0')).length := by
    simpa using h
  rw [all_mask_chars, bin_lit_val_reverse, testBit_bin_lit_val_le _ i hlen]
  simp only [List.get_eq_getElem, List.getElem_map]
  by_cases h0 : cs[i].min_occurs = 0 <;> simp [h0]

/-- Witness for C8 at a concrete child list. -/
theorem all_mask_bit_iff_witness :
    ((bin_lit_val (all_mask_chars [⟨"a", 0⟩, ⟨"b", 1⟩])).testBit 0 = true) ↔
      (([⟨"a", 0⟩, ⟨"b", 1⟩] : List AllChild).get ⟨0, by decide⟩).min_occurs = 0 :=
  all_mask_bit_iff [⟨"a", 0⟩, ⟨"b", 1⟩] 0 (by decide)

/-! ## C9: the end-of-input reject check of `_gen_count_dfa` (lines 479-481) -/

/-- Embedding of `reject_cond` (line 479): the conjuncts
`"state != %d" % x` for each accept state `x`. -/
def dfa_reject_cond_strs (accepts : List Nat) : List String :=
  accepts.map (fun x => "state != " ++ toString x)

/-- `" && ".join(...)` of the reject conjuncts. -/
def dfa_reject_cond (accepts : List Nat) : String :=
  joinSep " && " (dfa_reject_cond_strs accepts)

/-- The offending-token argument of the end-of-input `dfa_error` call
(the string literal spliced into line 481). -/
def dfa_end_error_token : String := "end of input"

/-- Embedding of the final emitted line of `_gen_count_dfa` (line 481):
`if(<reject_cond>) dfa_error("end of input", gstate_<T>[state], gtok_lookup_<T>, <len>);`,
with the offending-token literal written via `dfa_end_error_token`. -/
def gen_count_dfa_end (cpp_type : String) (accepts : List Nat) (alpha_len : Nat) : String :=
  "if(" ++ dfa_reject_cond accepts ++ ") dfa_error(\"" ++ dfa_end_error_token ++
    "\", gstate_" ++ cpp_type ++ "[state], gtok_lookup_" ++ cpp_type ++ ", " ++
    toString alpha_len ++ ");\n"

/-- C++ truth value of the emitted conjunction `state != a1 && ... && state != ak`
at a given final DFA state. -/
def eval_reject_cond (accepts : List Nat) (state : Nat) : Bool :=
  accepts.all (fun x => state != x)

/-- Claim C9: after the child loop, the emitted check raises a DFA error iff
the final state is not in the accept set, and the offending-token string it
passes is the literal `"end of input"`.  (The nonemptiness hypothesis reflects
that `" && ".join` of an empty accept list would emit no condition at all.) -/
theorem dfa_end_reject_iff (cpp_type : String) (accepts : List Nat) (alpha_len state : Nat)
    (haccepts : accepts ≠ []) :
    (eval_reject_cond accepts state = true ↔ state ∉ accepts) ∧
      dfa_end_error_token = "end of input" ∧
      gen_count_dfa_end cpp_type accepts alpha_len =
        "if(" ++ dfa_reject_cond accepts ++ ") dfa_error(\"" ++ dfa_end_error_token ++
          "\", gstate_" ++ cpp_type ++ "[state], gtok_lookup_" ++ cpp_type ++ ", " ++
          toString alpha_len ++ ");\n" := by
  refine ⟨?_, rfl, rfl⟩
  unfold eval_reject_cond
  rw [List.all_eq_true]
  constructor
  · intro hall hmem
    have := hall state hmem
    simp at this
  · intro hnm x hx
    simp only [bne_iff_ne, ne_eq]
    intro heq
    exact hnm (heq ▸ hx)

/-- Witness for C9 at a concrete accept set. -/
theorem dfa_end_reject_iff_witness :
    (eval_reject_cond [1, 2] 0 = true ↔ 0 ∉ [1, 2]) ∧
      dfa_end_error_token = "end of input" ∧
      gen_count_dfa_end ("t_x") [1, 2] 3 =
        "if(" ++ dfa_reject_cond [1, 2] ++ ") dfa_error(\"" ++ dfa_end_error_token ++
          "\", gstate_" ++ "t_x" ++ "[state], gtok_lookup_" ++ "t_x" ++ ", " ++
          toString 3 ++ ");\n" :=
  dfa_end_reject_iff ("t_x") [1, 2] 3 0 (by decide)

/-! ## C2: the type-tag enum member order (lines 359-361) -/

/-- Embedding of `type_tag_definition` (line 361):
`"enum class type_tag {%s};\n" % ", ".join(<iteration of the Python set of tokens>)`.
The Python `set` iteration order of strings depends on the process hash seed,
so the argument here is the token sequence in whatever order one run's set
iteration yields. -/
def type_tag_definition (tokens_in_iteration_order : List String) : String :=
  "enum class type_tag \x7b" ++ joinSep ", " tokens_in_iteration_order ++ "\x7d;\n"

/-- Claim C2 is false on the code: two enumeration orders of the same token
set (as two runs with different string-hash seeds can produce, since line 361
iterates `set([...])` and discards the `sorted` order of line 360) yield
different output text for the type-tag enum.  The tokens are those of a schema
whose unions mention `xs:float` and `xs:int` (`to_token` of the C++ types). -/
theorem type_tag_definition_order_dependent :
    type_tag_definition [to_token ("float"), to_token ("int")] ≠
        type_tag_definition [to_token ("int"), to_token ("float")] ∧
      List.Perm [to_token ("float"), to_token ("int")] [to_token ("int"), to_token ("float")] := by
  constructor
  · decide
  · decide

/-! ## C10: declared helper name vs defined root-loader name
(`builtin_fn_declarations`, lines 88-96, and `gen_init_fn`, lines 665-684) -/

/-- An annotated element as the load emitters consume it: its name, its type's
name, whether that type is complex (otherwise `type_name` is the qualified
name of an atomic builtin), and the derived `many`/`optional` flags. -/
structure XElem where
  name : String
  type_name : String
  cpp_type : String
  type_is_complex : Bool
  many : Bool
  optional : Bool

/-- Embedding of `_gen_load_element_complex` (lines 567-578). -/
def gen_load_element_complex (t : XElem) (parent : String) : String :=
  let container := (if parent = "" then "" else parent ++ "->") ++ t.name
  if t.many then
    "load_" ++ t.type_name ++ "(node, &" ++ t.type_name ++ "_arena[g_num_" ++ t.type_name ++
      "]);\n" ++ "g_num_" ++ t.type_name ++ "++;\n" ++ parent ++ "->num_" ++ t.name ++ "++;\n"
  else
    "load_" ++ t.type_name ++ "(node, &" ++ container ++ ");\n" ++
      (if t.optional then parent ++ "->has_" ++ t.name ++ " = 1;\n" else "")

/-- Embedding of `_gen_load_element` (lines 580-587).  A non-complex,
non-builtin element type raises `NotImplementedError` in the source (and a
builtin outside the format dict raises `KeyError`); both become `none`. -/
def gen_load_element (t : XElem) (parent : String) : Option String :=
  if t.type_is_complex then some (gen_load_element_complex t parent)
  else
    (atomic_builtin_load_formats t.type_name).map (fun fmt =>
      ((if parent = "" then "" else parent ++ "->") ++ t.name) ++ " = " ++
        fmt ("node.child_value()") ++ ";\n")

/-- Embedding of `builtin_fn_declarations` (lines 88-96), the triple-quoted
declaration block printed verbatim into every output. -/
def builtin_fn_declarations : String :=
  "\nvoid dfa_error(const char *wrong, int *states, const char **lookup, int len);\ntemplate<std::size_t N>\nvoid all_error(std::bitset<N> gstate, const char **lookup);\ntemplate<std::size_t N>\nvoid attr_error(std::bitset<N> astate, const char **lookup);\nvoid alloc_arenas(void);\nvoid get_root_elements(const char *filename);\n"

/-- Embedding of the root-element `if`/`else if` cases of `gen_init_fn`
(lines 674-679), with `i` the running index of the `enumerate`. -/
def gen_init_fn_cases : Nat → List XElem → Option String
  | _, [] => some ""
  | i, el :: rest => do
      let body ← gen_load_element el ""
      let restS ← gen_init_fn_cases (i + 1) rest
      pure ("\t\t" ++ (if i = 0 then "if" else "else if") ++ "(std::strcmp(node.name(), \"" ++
        el.name ++ "\") == 0)\x7b\n" ++ "\t\t\tcount_" ++ el.name ++ "(node);\n" ++
        "\t\t\talloc_arenas();\n" ++ indent body 3 ++ "\t\t\x7d\n" ++ restS)

/-- Embedding of `gen_init_fn` (lines 665-684): the definition of the root
loader, whose emitted header names the function `get_root_element`. -/
def gen_init_fn (elements : List XElem) : Option String :=
  (gen_init_fn_cases 0 elements).map (fun cases =>
    "void get_root_element(const char *filename)\x7b\n" ++
    "\tpugi::xml_document doc;\n" ++
    "\tpugi::xml_parse_result result = doc.load_file(filename);\n" ++
    "\tif(!result)\n" ++
    "\t\tthrow std::runtime_error(\"Could not load XML file \" + std::string(filename) + \".\");\n" ++
    "\tfor(pugi::xml_node node= doc.first_child(); node; node = node.next_sibling())\x7b\n" ++
    cases ++
    "\t\telse throw std::runtime_error(\"Invalid root-level element \" + std::string(node.name()));\n" ++
    "\t\x7d\n" ++ "\x7d\n")

/-- Claim C10: every output's forward declarations contain the line
`void get_root_elements(const char *filename);` (plural), while the emitted
definition is named `get_root_element`; the declared name never matches the
defined one. -/
theorem init_fn_name_mismatch :
    (∃ pre post, builtin_fn_declarations =
        pre ++ "void get_root_elements(const char *filename);" ++ post) ∧
      (∀ elements s, gen_init_fn elements = some s →
        ∃ rest, s = "void get_root_element(const char *filename)\x7b\n" ++ rest) ∧
      ("get_root_elements" : String) ≠ "get_root_element" := by
  refine ⟨⟨"\nvoid dfa_error(const char *wrong, int *states, const char **lookup, int len);\ntemplate<std::size_t N>\nvoid all_error(std::bitset<N> gstate, const char **lookup);\ntemplate<std::size_t N>\nvoid attr_error(std::bitset<N> astate, const char **lookup);\nvoid alloc_arenas(void);\n", "\n", by decide⟩, ?_, by decide⟩
  intro elements s h
  unfold gen_init_fn at h
  cases hc : gen_init_fn_cases 0 elements with
  | none => rw [hc] at h; simp at h
  | some cases' =>
    rw [hc] at h
    simp only [Option.map_some', Option.some.injEq] at h
    exact ⟨_, h.symm⟩

/-- A concrete root element for the C10 witness. -/
def ex10_el : XElem := ⟨"foo", "foo", "t_foo", true, false, false⟩

/-- Witness for C10's inner implication at a concrete element list. -/
theorem init_fn_name_mismatch_witness :
    ∃ rest, (gen_init_fn [ex10_el]).getD ("") =
      "void get_root_element(const char *filename)\x7b\n" ++ rest :=
  init_fn_name_mismatch.2.1 [ex10_el] ((gen_init_fn [ex10_el]).getD ("")) (by decide)

/-! ## C5: `_gen_write_simple` (lines 691-709) -/

/-- A simple type as the write emitter dispatches on it.  `atomic` covers the
`XsdAtomicBuiltin or XsdList` branch; `enumR` carries the restriction's name
(its `cpp_type` is `enum_<name>`); `unionT` carries the union's name and its
member types; `other` is the `NotImplementedError` branch. -/
inductive SimpleWT where
  | atomic (cpp_type : String)
  | enumR (name : String)
  | unionT (name : String) (member_types : List SimpleWT)
  | other

/-- The `cpp_type` attached to a simple type by the annotator
(`anno_type_simple_type`, lines 254-267, and lines 243, 247). -/
def SimpleWT.cppType : SimpleWT → String
  | .atomic cpp => cpp
  | .enumR n => "enum_" ++ n
  | .unionT n _ => "union_" ++ n
  | .other => ""

/-- Embedding of `_gen_write_simple` (lines 691-709).  The union branch is
kept exactly as in the source: for each member `m` it emits the tag test and
then recurses on `t` — the union itself — not on `m` (line 706 passes `t`).
The fuel argument bounds the recursion depth; the Python function has no such
bound and simply recurses. -/
def gen_write_simple : Nat → SimpleWT → String → String → Option String
  | 0, _, _, _ => none
  | _ + 1, .atomic _, container, attr_name =>
      some (if attr_name = "" then "os << " ++ container ++ ";\n"
        else "os << \" " ++ attr_name ++ "=\\\"\" << " ++ container ++ " << \"\\\"\";\n")
  | _ + 1, .enumR nm, container, attr_name =>
      some (if attr_name = "" then "os << lookup_" ++ nm ++ "[(int)" ++ container ++ "];\n"
        else "os << \" " ++ attr_name ++ "=\\\"\" << lookup_" ++ nm ++ "[(int)" ++ container ++
          "] << \"\\\"\";\n")
  | f + 1, .unionT nm mems, container, attr_name =>
      mems.foldl (fun acc m =>
        acc.bind (fun s =>
          (gen_write_simple f (.unionT nm mems)
              (container ++ "." ++ to_union_member_type m.cppType) attr_name).map
            (fun sub => s ++ "if(" ++ container ++ ".tag == type_tag::" ++ to_token m.cppType ++
              ")" ++ indent sub 1)))
        (some "")
  | _ + 1, .other, _, _ => none

theorem foldl_bind_none {α β : Type} (h : α → β → Option β) (l : List α) :
    l.foldl (fun acc m => acc.bind (h m)) none = none := by
  induction l with
  | nil => rfl
  | cons m rest ih => simpa using ih

/-- Claim C5 fails on the code: for any union with at least one member type,
`_gen_write_simple` never terminates, because the union branch (line 706)
recurses on the union `t` itself instead of the member `m`.  In the fuel
embedding, no amount of fuel produces a result; the Python original raises
`RecursionError` instead of emitting tag-branching writer code. -/
theorem gen_write_simple_union_diverges (nm : String) (mems : List SimpleWT)
    (hmem : mems ≠ []) :
    ∀ (f : Nat) (container attr_name : String),
      gen_write_simple f (.unionT nm mems) container attr_name = none := by
  intro f
  induction f with
  | zero => intro container attr_name; rfl
  | succ f ih =>
    intro container attr_name
    obtain ⟨m, rest, rfl⟩ : ∃ m rest, mems = m :: rest := by
      cases mems with
      | nil => exact absurd rfl hmem
      | cons m rest => exact ⟨m, rest, rfl⟩
    show List.foldl _ (some "") (m :: rest) = none
    rw [List.foldl_cons]
    have hstep : (some "").bind (fun s =>
        (gen_write_simple f (.unionT nm (m :: rest))
            (container ++ "." ++ to_union_member_type m.cppType) attr_name).map
          (fun sub => s ++ "if(" ++ container ++ ".tag == type_tag::" ++ to_token m.cppType ++
            ")" ++ indent sub 1)) = none := by
      rw [ih (container ++ "." ++ to_union_member_type m.cppType) attr_name]
      rfl
    rw [hstep]
    exact foldl_bind_none _ rest

/-- Witness for C5 at a concrete single-member union. -/
theorem gen_write_simple_union_diverges_witness :
    gen_write_simple 5 (.unionT ("u") [.atomic ("int")]) ("x.value") ("") = none :=
  gen_write_simple_union_diverges ("u") [.atomic ("int")] (List.cons_ne_nil _ _) 5 ("x.value") ("")

/-! ## C1: `gen_write_fn` (lines 754-761) and the driver's single call on
`elements[0]` (line 840) -/

/-- An attribute as `_gen_write_attr` (lines 711-719) consumes it:
`use_required` is `a.use == "required"`, `has_default` the truthiness of
`a.default`. -/
structure WAttr where
  name : String
  use_required : Bool
  has_default : Bool
  ty : SimpleWT

/-- An annotated root element/child element as `_gen_write_element`
(lines 724-752) consumes it, with its type's pieces inlined:
`attrs` is `el.type.attribute_list`, `children` is `el.type.child_elements`
(each with its own derived flags), `content` is `el.type.content_type` when
`el.type.has_simple_content()`. -/
inductive WElement where
  | mk (name : String) (many : Bool) (optional : Bool) (attrs : List WAttr)
      (children : List WElement) (content : Option SimpleWT)

def WElement.name : WElement → String
  | .mk n _ _ _ _ _ => n

def WElement.many : WElement → Bool
  | .mk _ m _ _ _ _ => m

def WElement.optional : WElement → Bool
  | .mk _ _ o _ _ _ => o

def WElement.attrs : WElement → List WAttr
  | .mk _ _ _ a _ _ => a

def WElement.children : WElement → List WElement
  | .mk _ _ _ _ c _ => c

def WElement.content : WElement → Option SimpleWT
  | .mk _ _ _ _ _ c => c

/-- Embedding of `_gen_write_attr` (lines 711-719). -/
def gen_write_attr (f : Nat) (a : WAttr) (container : String) : Option String :=
  let new_container := container ++ "." ++ a.name
  if a.use_required || a.has_default then
    gen_write_simple f a.ty new_container a.name
  else
    (gen_write_simple f a.ty new_container a.name).map (fun s =>
      "if((bool)" ++ new_container ++ ")\n" ++ indent s 1)

/-- Embedding of `_gen_write_element` (lines 724-752).  The result pairs the
emitted text with the keyword warnings produced by the two `checked` calls of
the `many` branch (lines 738-739).  The fuel bounds recursion into child
elements (Python recurses without a bound and does not terminate on recursive
types). -/
def gen_write_element : Nat → WElement → String → Nat → Option (String × List String)
  | 0, _, _, _ => none
  | f + 1, el, container, level => do
      let iS := String.mk [Char.ofNat (105 + level)]
      let openS ←
        if el.attrs.isEmpty then
          pure ("os << \"<" ++ el.name ++ ">\";\n")
        else do
          let attrsS ← el.attrs.foldlM (fun (acc : String) a =>
            (gen_write_attr f a container).map (fun s => acc ++ s)) ""
          pure ("os << \"<" ++ el.name ++ "\";\n" ++ attrsS ++ "os << \">\";\n")
      let childrenS ← el.children.foldlM (fun (acc : String × List String) e =>
        if e.many then
          let c1 := checked e.name
          let c2 := checked e.name
          (gen_write_element f e c2.1 (level + 1)).map (fun sub =>
            (acc.1 ++ "for(int " ++ iS ++ "=0; " ++ iS ++ "<" ++ container ++ ".num_" ++
                e.name ++ "; " ++ iS ++ "++)\x7b\n" ++
              "\tauto &" ++ c1.1 ++ " = " ++ container ++ "." ++ e.name ++ "_list[" ++ iS ++
                "];\n" ++
              indent sub.1 1 ++ "\x7d\n",
              acc.2 ++ c1.2 ++ c2.2 ++ sub.2))
        else
          let new_container := container ++ "." ++ e.name
          if e.optional then
            (gen_write_element f e new_container (level + 1)).map (fun sub =>
              (acc.1 ++ "if(" ++ container ++ ".has_" ++ e.name ++ ")\x7b\n" ++
                indent sub.1 1 ++ "\x7d\n", acc.2 ++ sub.2))
          else
            (gen_write_element f e new_container (level + 1)).map (fun sub =>
              (acc.1 ++ sub.1, acc.2 ++ sub.2)))
        ("", [])
      let contentS ←
        match el.content with
        | none => pure ""
        | some st => gen_write_simple f st (el.name ++ ".value") ""
      pure (openS ++ childrenS.1 ++ contentS ++ "os << \"</" ++ el.name ++ ">\";\n",
        childrenS.2)

/-- Embedding of `gen_write_fn` (lines 754-761): the single emitted function
`write_root_element`, generated from one element. -/
def gen_write_fn (f : Nat) (t : WElement) : Option (String × List String) :=
  (gen_write_element f t t.name 0).map (fun sub =>
    ("void write_root_element(std::ostream &os)\x7b\n" ++
      "\t/* Print floating points with max double precision. */\n" ++
      "\tos.precision(std::numeric_limits<double>::max_digits10);\n" ++
      indent sub.1 1 ++ "\x7d\n", sub.2))

/-- Embedding of the driver's write section (line 840):
`print(gen_write_fn(elements[0]))` - `elements[0]` raises `IndexError` when
the schema declares no root element. -/
def write_section (f : Nat) (elements : List WElement) : Option (String × List String) :=
  match elements with
  | [] => none
  | e :: _ => gen_write_fn f e

/-- The list of write-function texts the driver emits. -/
def emitted_write_fns (f : Nat) (elements : List WElement) : List String :=
  match write_section f elements with
  | some s => [s.1]
  | none => []

/-- Two empty-typed root elements for the C1 counterexample. -/
def ex1_a : WElement := .mk "a" false false [] [] none

def ex1_b : WElement := .mk "b" false false [] [] none

/-- Claim C1 fails on the code: for a schema with two root elements, the
driver does not emit one writer per root element - it emits exactly one
writer, generated from `elements[0]` only, and the writer that
`gen_write_fn` would generate for the second root element appears nowhere in
the output. -/
theorem write_fn_not_per_root_element :
    ¬ (∀ el ∈ [ex1_a, ex1_b],
        ((gen_write_fn 3 el).map Prod.fst).getD ("") ∈ emitted_write_fns 3 [ex1_a, ex1_b]) := by
  intro h
  have hb := h ex1_b (by simp)
  revert hb
  decide

/-- Claim C1 amended: regardless of how many root elements the schema
declares, the driver's write section emits exactly one write function, the
one generated from the first root element. -/
theorem write_fn_only_first_root (f : Nat) (elements : List WElement)
    (h : elements ≠ []) :
    write_section f elements = gen_write_fn f (elements.head h) ∧
      (emitted_write_fns f elements).length ≤ 1 := by
  cases elements with
  | nil => exact absurd rfl h
  | cons e rest =>
    refine ⟨rfl, ?_⟩
    unfold emitted_write_fns
    cases hw : write_section f (e :: rest) <;> simp

/-- Witness for the amended C1 theorem at a two-root schema. -/
theorem write_fn_only_first_root_witness :
    write_section 3 [ex1_a, ex1_b] =
        gen_write_fn 3 (([ex1_a, ex1_b] : List WElement).head (List.cons_ne_nil _ _)) ∧
      (emitted_write_fns 3 [ex1_a, ex1_b]).length ≤ 1 :=
  write_fn_only_first_root 3 [ex1_a, ex1_b] (List.cons_ne_nil _ _)

/-! ## C6: `_gen_load_union` (lines 530-546) -/

/-- The kind a union member type can have inside `_gen_load_union`:
`XsdAtomicBuiltin`, `XsdAtomicRestriction` (enum), or anything else (the
`NotImplementedError` branch). -/
inductive MKind where
  | builtin
  | enumR
  | otherK
deriving DecidableEq

/-- A union member type: its dispatch kind, its schema name (the qualified
builtin name, or the restriction name), and its annotated `cpp_type`. -/
structure UMember where
  kind : MKind
  name : String
  cpp_type : String

/-- A union simple type as `_gen_load_union` consumes it. -/
structure XUnion where
  name : String
  member_types : List UMember

/-- The text `_gen_load_union` appends for one member (lines 532-544):
tag assignment, parse attempt, and accept check; `none` when the member kind
is unsupported or a builtin name is outside the load-format dict. -/
def union_member_chunk (m : UMember) (container input : String) : Option String :=
  let new_container := container ++ "." ++ to_union_member_type m.cpp_type
  let tagLine := container ++ ".tag = type_tag::" ++ to_token m.cpp_type ++ ";\n"
  match m.kind with
  | .builtin =>
      (atomic_builtin_load_formats m.name).map (fun fmt =>
        tagLine ++ new_container ++ " = " ++ fmt input ++ ";\n" ++
          "if(errno == 0)\n" ++ "\tbreak;\n")
  | .enumR =>
      some (tagLine ++ new_container ++ " = lex_" ++ m.name ++ "(" ++ input ++ ", false);\n" ++
        "if(" ++ new_container ++ " != " ++ m.cpp_type ++ "::UXSD_INVALID)\n" ++ "break;\n")
  | .otherK => none

/-- The member loop of `_gen_load_union`: accumulate the chunks in
declaration order, aborting (like the Python `raise`) on an unsupported
member. -/
def gen_load_union_body (container input : String) : String → List UMember → Option String
  | acc, [] => some acc
  | acc, m :: rest =>
    match union_member_chunk m container input with
    | none => none
    | some s => gen_load_union_body container input (acc ++ s) rest

/-- Embedding of `_gen_load_union` (lines 530-546): the member chunks in
declaration order followed by the final `throw`. -/
def gen_load_union (t : XUnion) (container input : String) : Option String :=
  (gen_load_union_body container input "" t.member_types).map
    (fun s => s ++ "throw std::runtime_error(\"Couldn't load a suitable value into union " ++
      t.name ++ ".\");\n")

/-- Abstract statements of the emitted union-loading block.  Each member `i`
contributes `setTag i`, `parse i`, `ifBreak i`; the block ends with
`throwFail`.  `ifBreak` models `if(errno == 0) break;` for builtins and
`if(x != UXSD_INVALID) break;` for enums - in the emitted C++ the `break`
leaves the enclosing `switch`, skipping the remaining members and the throw. -/
inductive UStmt where
  | setTag (i : Nat) (m : UMember)
  | parse (i : Nat) (m : UMember)
  | ifBreak (i : Nat) (m : UMember)
  | throwFail

/-- The abstract member blocks read off the emitted text, member by member in
declaration order (matching `union_member_chunk`). -/
def union_prog_blocks : Nat → List UMember → Option (List UStmt)
  | _, [] => some []
  | i, m :: rest =>
    match m.kind with
    | .builtin =>
        if (atomic_builtin_load_formats m.name).isSome then
          (union_prog_blocks (i + 1) rest).map (fun p =>
            .setTag i m :: .parse i m :: .ifBreak i m :: p)
        else none
    | .enumR =>
        (union_prog_blocks (i + 1) rest).map (fun p =>
          .setTag i m :: .parse i m :: .ifBreak i m :: p)
    | .otherK => none

/-- The abstract program of the whole emitted block: the member blocks
followed by the final throw. -/
def union_prog (ms : List UMember) : Option (List UStmt) :=
  (union_prog_blocks 0 ms).map (fun p => p ++ [UStmt.throwFail])

/-- The emitted text of one abstract statement. -/
def render_ustmt (uname container input : String) : UStmt → String
  | .setTag _ m => container ++ ".tag = type_tag::" ++ to_token m.cpp_type ++ ";\n"
  | .parse _ m =>
    match m.kind with
    | .builtin => container ++ "." ++ to_union_member_type m.cpp_type ++ " = " ++
        ((atomic_builtin_load_formats m.name).getD id) input ++ ";\n"
    | .enumR => container ++ "." ++ to_union_member_type m.cpp_type ++ " = lex_" ++ m.name ++
        "(" ++ input ++ ", false);\n"
    | .otherK => ""
  | .ifBreak _ m =>
    match m.kind with
    | .builtin => "if(errno == 0)\n" ++ "\tbreak;\n"
    | .enumR => "if(" ++ container ++ "." ++ to_union_member_type m.cpp_type ++ " != " ++
        m.cpp_type ++ "::UXSD_INVALID)\n" ++ "break;\n"
    | .otherK => ""
  | .throwFail => "throw std::runtime_error(\"Couldn't load a suitable value into union " ++
      uname ++ ".\");\n"

/-- Outcome of running the emitted block: normal completion with the last tag
written, or the runtime error of the final throw. -/
inductive UOutcome where
  | ok (tag : Option Nat)
  | err
deriving DecidableEq

/-- Execution of the emitted straight-line block inside its enclosing
`switch`: `clean i` tells whether member `i`'s error channel is clean
(`errno == 0` for builtins, `!= UXSD_INVALID` for enums); a taken `ifBreak`
leaves the block at once. -/
def run_union (clean : Nat → Bool) : List UStmt → Option Nat → UOutcome
  | [], tag => .ok tag
  | .setTag i _ :: rest, _ => run_union clean rest (some i)
  | .parse _ _ :: rest, tag => run_union clean rest tag
  | .ifBreak i _ :: rest, tag => if clean i then .ok tag else run_union clean rest tag
  | .throwFail :: _, _ => .err

/-- The behaviour claim C6 states, written from its words: try the members in
declaration order and accept the first whose error channel is clean (leaving
its tag set); if none succeeds, raise the runtime error. -/
def spec_load_union (clean : Nat → Bool) : Nat → List UMember → UOutcome
  | _, [] => .err
  | i, _ :: rest => if clean i then .ok (some i) else spec_load_union clean (i + 1) rest

/-- Concatenation of a list of strings (in order). -/
def concatAll : List String → String
  | [] => ""
  | s :: rest => s ++ concatAll rest

theorem union_member_chunk_renders (container input : String) (m : UMember) (i : Nat)
    (uname : String)
    (hk : m.kind = MKind.builtin ∨ m.kind = MKind.enumR)
    (hfmt : m.kind = MKind.builtin → (atomic_builtin_load_formats m.name).isSome) :
    union_member_chunk m container input =
      some (render_ustmt uname container input (.setTag i m) ++
        (render_ustmt uname container input (.parse i m) ++
          render_ustmt uname container input (.ifBreak i m))) := by
  rcases hk with hb | he
  · obtain ⟨fmt, hfmt'⟩ := Option.isSome_iff_exists.mp (hfmt hb)
    unfold union_member_chunk render_ustmt
    simp [hb, hfmt', String.append_assoc]
  · unfold union_member_chunk render_ustmt
    simp only [he, Option.some.injEq]
    simp [String.append_assoc]
    rw [← String.append_assoc (", false);\n") ("if(")]
    rfl

theorem union_prog_blocks_cons (i : Nat) (m : UMember) (rest : List UMember) (p : List UStmt)
    (hp : union_prog_blocks i (m :: rest) = some p) :
    (m.kind = MKind.builtin ∨ m.kind = MKind.enumR) ∧
      (m.kind = MKind.builtin → (atomic_builtin_load_formats m.name).isSome) ∧
      union_prog_blocks (i + 1) rest = some (p.drop 3) ∧
      p = .setTag i m :: .parse i m :: .ifBreak i m :: p.drop 3 := by
  unfold union_prog_blocks at hp
  match hk : m.kind with
  | .otherK => rw [hk] at hp; exact absurd hp (by simp)
  | .builtin =>
    rw [hk] at hp
    by_cases hfmt : (atomic_builtin_load_formats m.name).isSome
    · rw [if_pos hfmt] at hp
      cases hrest : union_prog_blocks (i + 1) rest with
      | none => rw [hrest] at hp; exact absurd hp (by simp)
      | some p' =>
        rw [hrest] at hp
        simp only [Option.map_some', Option.some.injEq] at hp
        subst hp
        exact ⟨Or.inl rfl, fun _ => hfmt, by simpa using hrest, by simp⟩
    · rw [if_neg hfmt] at hp; exact absurd hp (by simp)
  | .enumR =>
    rw [hk] at hp
    cases hrest : union_prog_blocks (i + 1) rest with
    | none => rw [hrest] at hp; exact absurd hp (by simp)
    | some p' =>
      rw [hrest] at hp
      simp only [Option.map_some', Option.some.injEq] at hp
      subst hp
      exact ⟨Or.inr rfl, fun hb => by simp [hk] at hb,
        by simpa using hrest, by simp⟩

theorem union_blocks_render (uname container input : String) :
    ∀ (ms : List UMember) (i : Nat) (p : List UStmt),
      union_prog_blocks i ms = some p →
      ∀ acc : String,
        gen_load_union_body container input acc ms =
          some (acc ++ concatAll (p.map (render_ustmt uname container input))) := by
  intro ms
  induction ms with
  | nil =>
    intro i p hp acc
    simp only [union_prog_blocks, Option.some.injEq] at hp
    subst hp
    simp [concatAll, gen_load_union_body]
  | cons m rest ih =>
    intro i p hp acc
    obtain ⟨hkb, hfmt, hrest, hpshape⟩ := union_prog_blocks_cons i m rest p hp
    have hchunk := union_member_chunk_renders container input m i uname hkb hfmt
    rw [hpshape]
    show gen_load_union_body container input acc (m :: rest) = _
    simp only [gen_load_union_body, hchunk]
    rw [ih (i + 1) (p.drop 3) hrest]
    simp [concatAll, String.append_assoc]

theorem run_union_blocks (clean : Nat → Bool) :
    ∀ (ms : List UMember) (i : Nat) (bs : List UStmt),
      union_prog_blocks i ms = some bs →
      ∀ t0 : Option Nat,
        run_union clean (bs ++ [UStmt.throwFail]) t0 = spec_load_union clean i ms := by
  intro ms
  induction ms with
  | nil =>
    intro i bs hp t0
    simp only [union_prog_blocks, Option.some.injEq] at hp
    subst hp
    rfl
  | cons m rest ih =>
    intro i bs hp t0
    obtain ⟨hkb, hfmt, hrest, hshape⟩ := union_prog_blocks_cons i m rest bs hp
    rw [hshape]
    by_cases hc : clean i
    · simp [run_union, spec_load_union, hc, List.cons_append]
    · simp only [List.cons_append, run_union, spec_load_union, hc, if_neg, if_false,
        Bool.false_eq_true]
      exact ih (i + 1) (bs.drop 3) hrest (some i)

theorem union_prog_blocks_total :
    ∀ (ms : List UMember) (i : Nat),
      (∀ m ∈ ms, m.kind = MKind.builtin ∨ m.kind = MKind.enumR) →
      (∀ m ∈ ms, m.kind = MKind.builtin → (atomic_builtin_load_formats m.name).isSome) →
      (union_prog_blocks i ms).isSome := by
  intro ms
  induction ms with
  | nil => intro i _ _; simp [union_prog_blocks]
  | cons m rest ih =>
    intro i hsup hfmt
    have hrest := ih (i + 1) (fun m' hm' => hsup m' (by simp [hm']))
      (fun m' hm' => hfmt m' (by simp [hm']))
    obtain ⟨p', hp'⟩ := Option.isSome_iff_exists.mp hrest
    rcases hsup m (by simp) with hb | he
    · unfold union_prog_blocks
      rw [hb, if_pos (hfmt m (by simp) hb), hp']
      simp
    · unfold union_prog_blocks
      rw [he, hp']
      simp

/-- Claim C6: for every union simple type whose members are builtins or
enums (anything else aborts generation), the emitted loading code is the
member blocks in declaration order (each: set the tag, attempt the parse,
accept on a clean error channel - `errno == 0` for builtins,
`!= UXSD_INVALID` for enums) followed by a final throw, and running that
block accepts exactly the first member whose error channel is clean, leaving
its tag set, and raises the runtime error when no member succeeds. -/
theorem load_union_tries_members_in_order (t : XUnion) (container input : String)
    (hsup : ∀ m ∈ t.member_types, m.kind = MKind.builtin ∨ m.kind = MKind.enumR)
    (hfmt : ∀ m ∈ t.member_types, m.kind = MKind.builtin →
      (atomic_builtin_load_formats m.name).isSome) :
    ∃ p, union_prog t.member_types = some p ∧
      gen_load_union t container input =
        some (concatAll (p.map (render_ustmt t.name container input))) ∧
      ∀ (clean : Nat → Bool) (t0 : Option Nat),
        run_union clean p t0 = spec_load_union clean 0 t.member_types := by
  obtain ⟨bs, hbs⟩ := Option.isSome_iff_exists.mp
    (union_prog_blocks_total t.member_types 0 hsup hfmt)
  refine ⟨bs ++ [UStmt.throwFail], ?_, ?_, ?_⟩
  · unfold union_prog
    rw [hbs]
    rfl
  · unfold gen_load_union
    rw [union_blocks_render t.name container input t.member_types 0 bs hbs ""]
    have hsplitmap : (bs ++ [UStmt.throwFail]).map (render_ustmt t.name container input) =
        bs.map (render_ustmt t.name container input) ++
          [render_ustmt t.name container input UStmt.throwFail] := by
      simp
    rw [hsplitmap]
    have hconcat : ∀ (xs : List String) (y : String),
        concatAll (xs ++ [y]) = concatAll xs ++ y := by
      intro xs y
      induction xs with
      | nil => simp [concatAll]
      | cons x xs ihx => simp [concatAll, ihx, String.append_assoc]
    rw [hconcat]
    simp [render_ustmt, String.append_assoc]
  · intro clean t0
    exact run_union_blocks clean t.member_types 0 bs hbs t0

/-- A concrete union of `xs:int` and an enum for the C6 witness. -/
def ex6_union : XUnion :=
  ⟨"u", [⟨MKind.builtin, xsNS ++ "int", "int"⟩, ⟨MKind.enumR, "color", "enum_color"⟩]⟩

/-- Witness for C6 at a concrete union. -/
theorem load_union_tries_members_in_order_witness :
    ∃ p, union_prog ex6_union.member_types = some p ∧
      gen_load_union ex6_union ("out->value") ("root.child_value()") =
        some (concatAll (p.map (render_ustmt ex6_union.name ("out->value")
          ("root.child_value()")))) ∧
      ∀ (clean : Nat → Bool) (t0 : Option Nat),
        run_union clean p t0 = spec_load_union clean 0 ex6_union.member_types :=
  load_union_tries_members_in_order ex6_union ("out->value") ("root.child_value()")
    (by decide) (by decide)

/-! ## C7: `checked` (lines 177-182) and the warnings of a whole run.
`checked` is invoked only from `typedefn_from_complex_type` (lines 328, 336),
`_gen_load_attrs` (line 619) and `_gen_write_element` (lines 738-739), so a
run's keyword-warning stream is the concatenation of the warnings of the
struct-definition pass, the load-definition pass and the write pass, in that
emission order. -/

/-- A simple type as `_gen_load_simple` (lines 551-565) dispatches on it. -/
inductive SLT where
  | builtin (name : String) (cpp_type : String)
  | enumR (name : String)
  | listT
  | unionT (u : XUnion)
  | otherT

/-- Embedding of `_gen_load_simple` (lines 551-565). -/
def gen_load_simple (t : SLT) (container input : String) : Option String :=
  match t with
  | .builtin nm cpp =>
      (atomic_builtin_load_formats nm).map (fun fmt =>
        container ++ " = " ++ fmt input ++ ";\n" ++
          "if(errno != 0)\n" ++
          "\tthrow std::runtime_error(\"Invalid value `\" + std::string(" ++ input ++
            ") + \"` to load a " ++ cpp ++ " into " ++ container ++ ".\");")
  | .enumR nm => some (container ++ " = lex_" ++ nm ++ "(" ++ input ++ ", true);\n")
  | .listT => some (container ++ " = strdup(" ++ input ++ ");\n")
  | .unionT u => gen_load_union u container input
  | .otherT => none

/-- An attribute as the struct and load emitters consume it:
`use_optional` is `attr.use == "optional"` (line 625), `cpp_type` is
`attr.type.cpp_type`. -/
structure CAttr where
  name : String
  cpp_type : String
  use_optional : Bool
  sty : SLT

/-- Simple content of a complex type: its loader type and its `cpp_type`. -/
structure CContent where
  sty : SLT
  cpp_type : String

/-- An annotated complex type as `typedefn_from_complex_type` (lines 325-341)
and `load_fn_from_complex_type` (lines 630-644) consume it.  `has_model` is
the truthiness of `t.model` (`"all"` or `"dfa"`). -/
structure CType where
  name : String
  cpp_type : String
  attribute_list : List CAttr
  child_elements : List XElem
  has_model : Bool
  content : Option CContent

/-- Embedding of `typedefn_from_complex_type` (lines 325-341), paired with
the keyword warnings of its `checked` calls (lines 328 and 336). -/
def typedefn_from_complex_type (t : CType) : String × List String :=
  let attrsPart := t.attribute_list.foldl (fun (acc : String × List String) attr =>
    let c := checked attr.name
    (acc.1 ++ attr.cpp_type ++ " " ++ c.1 ++ ";\n", acc.2 ++ c.2)) ("", [])
  let childPart := t.child_elements.foldl (fun (acc : String × List String) child =>
    if child.many then
      (acc.1 ++ "int num_" ++ child.name ++ ";\n" ++
        child.cpp_type ++ " * " ++ child.name ++ "_list;\n", acc.2)
    else
      let c := checked child.name
      (acc.1 ++ (if child.optional then "bool has_" ++ child.name ++ ";\n" else "") ++
        child.cpp_type ++ " " ++ c.1 ++ ";\n", acc.2 ++ c.2)) ("", [])
  let contentPart := match t.content with
    | none => ""
    | some c => c.cpp_type ++ " value;\n"
  ("struct " ++ t.cpp_type ++ " \x7b\n" ++
      indent (attrsPart.1 ++ childPart.1 ++ contentPart) 1 ++ "\x7d;\n",
    attrsPart.2 ++ childPart.2)

/-- Embedding of `_gen_load_attrs` (lines 607-628), paired with the keyword
warnings of its `checked` call (line 619). -/
def gen_load_attrs (t : CType) : Option (String × List String) :=
  let N := t.attribute_list.length
  let head := "std::bitset<" ++ toString N ++ "> astate = 0;\n" ++
    "for(pugi::xml_attribute attr = root.first_attribute(); attr; attr = attr.next_attribute())\x7b\n" ++
    "\tatok_" ++ t.cpp_type ++ " in = alex_" ++ t.cpp_type ++ "(attr.name());\n" ++
    "\tif(astate[(int)in] == 0) astate[(int)in] = 1;\n" ++
    "\telse throw std::runtime_error(\"Duplicate attribute \" + std::string(attr.name()) + \" in <" ++
      t.name ++ ">.\");\n" ++
    "\tswitch(in)\x7b\n"
  let cases := t.attribute_list.foldl (fun (acc : Option (String × List String)) attr =>
    acc.bind (fun a =>
      let c := checked attr.name
      (gen_load_simple attr.sty ("out->" ++ c.1) ("attr.value()")).map (fun s =>
        (a.1 ++ "\tcase atok_" ++ t.cpp_type ++ "::" ++ to_token attr.name ++ ":\n" ++
          indent s 2 ++ "\t\tbreak;\n", a.2 ++ c.2)))) (some ("", []))
  cases.map (fun cs =>
    let mask := String.mk ((t.attribute_list.map
      (fun a => if a.use_optional then '1' else '0')).reverse)
    (head ++ cs.1 ++ "\tdefault: break; /* Not possible. */\n" ++ "\t\x7d\n" ++ "\x7d\n" ++
      "std::bitset<" ++ toString N ++ "> test_state = astate | std::bitset<" ++ toString N ++
        ">(0b" ++ mask ++ ");\n" ++
      "if(!test_state.all()) attr_error(test_state, atok_lookup_" ++ t.cpp_type ++ ");\n",
      cs.2))

/-- Embedding of `_gen_load_group` (lines 589-605); it calls no `checked`. -/
def gen_load_group (t : CType) : Option String :=
  let ptrs := (t.child_elements.filter (fun x => x.many)).foldl (fun acc el =>
    acc ++ "out->" ++ el.name ++ "_list = &" ++ el.type_name ++ "_arena[g_num_" ++
      el.type_name ++ "];\n") ""
  let head := "for(pugi::xml_node node = root.first_child(); node; node = node.next_sibling())\x7b\n" ++
    "\tgtok_" ++ t.cpp_type ++ " in = glex_" ++ t.cpp_type ++ "(node.name());\n" ++
    "\tswitch(in)\x7b\n"
  (t.child_elements.foldl (fun (acc : Option String) el =>
    acc.bind (fun a => (gen_load_element el ("out")).map (fun s =>
      a ++ "\tcase gtok_" ++ t.cpp_type ++ "::" ++ to_token el.name ++ ":\n" ++
        indent s 2 ++ "\t\tbreak;\n"))) (some "")).map
    (fun cases => ptrs ++ head ++ cases ++ "\tdefault: break; /* Not possible. */\n" ++
      "\t\x7d\n" ++ "\x7d\n")

/-- Embedding of `load_fn_from_complex_type` (lines 630-644). -/
def load_fn_from_complex_type (t : CType) : Option (String × List String) := do
  let header := "void load_" ++ t.name ++ "(const pugi::xml_node &root, " ++ t.cpp_type ++
    " *out)\x7b\n"
  let bodyModel : String ←
    (if t.has_model then (gen_load_group t).map (fun s => indent s 1)
      else
        match t.content with
        | some c =>
          (gen_load_simple c.sty ("out->value") ("root.child_value()")).map (fun s => indent s 1)
        | none => pure "")
  let attrsPart ←
    if t.attribute_list.isEmpty then
      pure ("\tif(root.first_attribute()) throw std::runtime_error(\"Unexpected attribute in <" ++
        t.name ++ ">.\");\n", ([] : List String))
    else (gen_load_attrs t).map (fun p => (indent p.1 1, p.2))
  pure (header ++ bodyModel ++ attrsPart.1 ++ "\x7d\n", attrsPart.2)

/-- The `struct_definitions` loop of the driver (lines 345-347). -/
def struct_definitions (types : List CType) : String × List String :=
  types.foldl (fun (acc : String × List String) t =>
    let p := typedefn_from_complex_type t
    (acc.1 ++ p.1, acc.2 ++ p.2)) ("", [])

/-- The `load_fn_definitions` loop of the driver (lines 646-648). -/
def load_fn_definitions (types : List CType) : Option (String × List String) :=
  types.foldl (fun (acc : Option (String × List String)) t =>
    acc.bind (fun a => (load_fn_from_complex_type t).map (fun p =>
      (a.1 ++ p.1 ++ "\n", a.2 ++ p.2)))) (some ("", []))

/-- The keyword-warning stream of a whole generator run, in emission order:
struct definitions, then load definitions, then the write function (the only
three emitters that call `checked`). -/
def gen_run_warnings (types : List CType) (root : WElement) (f : Nat) :
    Option (List String) := do
  let l ← load_fn_definitions types
  let w ← gen_write_fn f root
  pure ((struct_definitions types).2 ++ l.2 ++ w.2)

/-- The C7 example: a complex type `foo` whose one (required) attribute is
named `class`, a C++ keyword, of type `xs:string`. -/
def ex7_ct : CType :=
  ⟨"foo", "t_foo", [⟨"class", "const char *", false, SLT.builtin (xsNS ++ "string") ("const char *")⟩],
    [], false, none⟩

/-- The corresponding root element for the write pass. -/
def ex7_root : WElement :=
  .mk "foo" false false [⟨"class", true, false, SimpleWT.atomic ("const char *")⟩] [] none

/-- Claim C7 fails on the code: `checked` warns on every call, not once per
identifier per run.  For the schema with the keyword-named attribute `class`,
the run emits the `class` warning twice (once from the struct-definition
pass, once from the load pass), not exactly once. -/
theorem checked_warning_not_once_per_run :
    (gen_run_warnings [ex7_ct] ex7_root 3).map
        (fun ws => ws.count (kw_warning ("class"))) = some 2 ∧
      (2 : Nat) ≠ 1 := by
  constructor
  · decide
  · decide

/-- Claim C7 amended: `checked(s)` returns `s` unchanged when `s` is not a
C++ keyword, and returns `s ++ "_"` and emits exactly one warning for `s` per
call when it is - so an identifier looked up at several emission sites is
warned once per site, not once per run. -/
theorem checked_warns_per_call (s : String) :
    (s ∉ cpp_keywords → checked s = (s, [])) ∧
      (s ∈ cpp_keywords → checked s = (s ++ "_", [kw_warning s])) := by
  constructor <;> intro h <;> simp [checked, h]

/-- Witness for the amended C7 theorem. -/
theorem checked_warns_per_call_witness :
    checked ("class") = ("class" ++ "_", [kw_warning ("class")]) :=
  (checked_warns_per_call ("class")).2 (by decide)

/-! ## C3: the height sort (`key_ctype`, lines 301-309)

Complex types are the elements of `Fin n`; `children x` is the list of
complex types of `x`'s child elements.  The Python `key_ctype` threads one
mutable `visited` set through the whole computation: the set is shared
across the sibling recursions of the child-list comprehension, so a later
sibling sees every type visited inside an earlier sibling's subtree.  The
faithful embedding `key_ctype_aux` renders that mutation as state passing
and is the definition the sort below uses.  The auxiliary `height_key`
(and `height_of`) is the clean height with a persistent per-branch visited
set; it is NOT the source semantics, and serves only as the reference value
that `key_ctype` is proved to equal on forest-shaped schemas. -/

/-- Auxiliary clean height: like `key_ctype` but with a persistent visited
set per branch (children do not see each other's visits).  Used only as the
reference function of the forest characterization below. -/
def height_key (n : Nat) (children : Fin n → List (Fin n)) :
    Nat → Fin n → Finset (Fin n) → Nat
  | 0, _, _ => 0
  | f + 1, x, visited =>
    if x ∈ visited then 0
    else ((children x).map (fun y => height_key n children f y (insert x visited))).foldl
        max 0 + 1

/-- The clean height of a type: `height_key` from an empty visited set. -/
def height_of (n : Nat) (children : Fin n → List (Fin n)) (x : Fin n) : Nat :=
  height_key n children (n + 1) x ∅

/-- `y` is reachable from `x` along child edges (reflexively). -/
def Reaches (n : Nat) (children : Fin n → List (Fin n)) : Fin n → Fin n → Prop :=
  Relation.ReflTransGen (fun a b => b ∈ children a)

/-- The set of types reachable from `x`. -/
def reachSet (n : Nat) (children : Fin n → List (Fin n)) (x : Fin n) : Set (Fin n) :=
  setOf (fun y => Reaches n children x y)

theorem height_key_fuel_eq (n : Nat) (children : Fin n → List (Fin n)) :
    ∀ (f₁ f₂ : Nat) (x : Fin n) (v : Finset (Fin n)),
      n < f₁ + v.card → n < f₂ + v.card →
      height_key n children f₁ x v = height_key n children f₂ x v := by
  intro f₁
  induction f₁ with
  | zero =>
    intro f₂ x v h1 _
    have : v.card ≤ n := by simpa using Finset.card_le_card (Finset.subset_univ v)
    omega
  | succ f₁ ih =>
    intro f₂ x v h1 h2
    cases f₂ with
    | zero =>
      have : v.card ≤ n := by simpa using Finset.card_le_card (Finset.subset_univ v)
      omega
    | succ f₂ =>
      unfold height_key
      by_cases hx : x ∈ v
      · simp [hx]
      · simp only [hx, if_false]
        have hmap : (children x).map (fun y => height_key n children f₁ y (insert x v)) =
            (children x).map (fun y => height_key n children f₂ y (insert x v)) := by
          apply List.map_congr_left
          intro y _
          have hcard : (insert x v).card = v.card + 1 := Finset.card_insert_of_not_mem hx
          exact ih f₂ y (insert x v) (by omega) (by omega)
        rw [hmap]

theorem reaches_trans_child (n : Nat) (children : Fin n → List (Fin n)) (x y z : Fin n)
    (hy : y ∈ children x) (hz : Reaches n children y z) : Reaches n children x z :=
  Relation.ReflTransGen.head hy hz

theorem reachSet_child_ssubset (n : Nat) (children : Fin n → List (Fin n))
    (hacy : ∀ a b : Fin n, b ∈ children a → ¬ Reaches n children b a)
    (x y : Fin n) (hy : y ∈ children x) :
    (reachSet n children y).ncard < (reachSet n children x).ncard := by
  apply Set.ncard_lt_ncard
  · constructor
    · intro z hz
      exact reaches_trans_child n children x y z hy hz
    · intro hsub
      have hx : x ∈ reachSet n children x := Relation.ReflTransGen.refl
      have := hsub hx
      exact hacy x y hy this
  · exact Set.toFinite _

theorem height_key_visited_eq (n : Nat) (children : Fin n → List (Fin n))
    (hacy : ∀ a b : Fin n, b ∈ children a → ¬ Reaches n children b a) :
    ∀ (N : Nat) (x : Fin n), (reachSet n children x).ncard ≤ N →
      ∀ (f₁ f₂ : Nat) (v₁ v₂ : Finset (Fin n)),
        n < f₁ + v₁.card → n < f₂ + v₂.card →
        (∀ y ∈ v₁, ¬ Reaches n children x y) →
        (∀ y ∈ v₂, ¬ Reaches n children x y) →
        height_key n children f₁ x v₁ = height_key n children f₂ x v₂ := by
  intro N
  induction N with
  | zero =>
    intro x hcard f₁ f₂ v₁ v₂ _ _ _ _
    have hpos : 0 < (reachSet n children x).ncard := by
      rw [Set.ncard_pos (Set.toFinite _)]
      exact ⟨x, Relation.ReflTransGen.refl⟩
    omega
  | succ N ih =>
    intro x hcard f₁ f₂ v₁ v₂ hf1 hf2 hv1 hv2
    have hcardv1 : v₁.card ≤ n := by simpa using Finset.card_le_card (Finset.subset_univ v₁)
    have hcardv2 : v₂.card ≤ n := by simpa using Finset.card_le_card (Finset.subset_univ v₂)
    cases f₁ with
    | zero => omega
    | succ f₁ =>
      cases f₂ with
      | zero => omega
      | succ f₂ =>
        have hx1 : x ∉ v₁ := fun hx => hv1 x hx Relation.ReflTransGen.refl
        have hx2 : x ∉ v₂ := fun hx => hv2 x hx Relation.ReflTransGen.refl
        unfold height_key
        simp only [hx1, hx2, if_false]
        have hmap : (children x).map (fun y => height_key n children f₁ y (insert x v₁)) =
            (children x).map (fun y => height_key n children f₂ y (insert x v₂)) := by
          apply List.map_congr_left
          intro y hy
          have hcy : (reachSet n children y).ncard ≤ N := by
            have := reachSet_child_ssubset n children hacy x y hy
            omega
          have hc1 : (insert x v₁).card = v₁.card + 1 := Finset.card_insert_of_not_mem hx1
          have hc2 : (insert x v₂).card = v₂.card + 1 := Finset.card_insert_of_not_mem hx2
          apply ih y hcy f₁ f₂ (insert x v₁) (insert x v₂) (by omega) (by omega)
          · intro z hz hr
            rcases Finset.mem_insert.mp hz with hzx | hzv
            · exact hacy x y hy (hzx ▸ hr)
            · exact hv1 z hzv (reaches_trans_child n children x y z hy hr)
          · intro z hz hr
            rcases Finset.mem_insert.mp hz with hzx | hzv
            · exact hacy x y hy (hzx ▸ hr)
            · exact hv2 z hzv (reaches_trans_child n children x y z hy hr)
        rw [hmap]

theorem height_key_succ (n : Nat) (children : Fin n → List (Fin n)) (f : Nat) (x : Fin n)
    (visited : Finset (Fin n)) :
    height_key n children (f + 1) x visited =
      if x ∈ visited then 0
      else ((children x).map (fun y => height_key n children f y (insert x visited))).foldl
          max 0 + 1 :=
  rfl

theorem init_le_foldl_max : ∀ (l : List Nat) (init : Nat), init ≤ l.foldl max init := by
  intro l
  induction l with
  | nil => intro init; exact Nat.le_refl _
  | cons h t ih =>
    intro init
    exact Nat.le_trans (Nat.le_max_left init h) (ih (max init h))

theorem mem_le_foldl_max : ∀ (l : List Nat) (init a : Nat), a ∈ l → a ≤ l.foldl max init := by
  intro l
  induction l with
  | nil => intro init a ha; exact absurd ha (by simp)
  | cons h t ih =>
    intro init a ha
    rcases List.mem_cons.mp ha with rfl | hat
    · exact Nat.le_trans (Nat.le_max_right init a) (init_le_foldl_max t (max init a))
    · exact ih (max init h) a hat

theorem foldl_max_eq_max : ∀ (l : List Nat) (a : Nat), l.foldl max a = max a (l.foldl max 0) := by
  intro l
  induction l with
  | nil => intro a; simp
  | cons b t ih =>
    intro a
    show t.foldl max (max a b) = max a (t.foldl max (max 0 b))
    rw [ih (max a b), Nat.zero_max, ih b, Nat.max_assoc]

theorem height_of_child_lt (n : Nat) (children : Fin n → List (Fin n))
    (hacy : ∀ a b : Fin n, b ∈ children a → ¬ Reaches n children b a)
    (T U : Fin n) (hU : U ∈ children T) :
    height_of n children U < height_of n children T := by
  have hTnot : (T : Fin n) ∉ (∅ : Finset (Fin n)) := by simp
  have hunfold : height_of n children T =
      ((children T).map (fun y => height_key n children n y (insert T ∅))).foldl max 0 + 1 := by
    unfold height_of
    rw [height_key_succ, if_neg hTnot]
  have hmem : height_key n children n U (insert T ∅) ∈
      (children T).map (fun y => height_key n children n y (insert T ∅)) :=
    List.mem_map_of_mem _ hU
  have hle : height_key n children n U (insert T ∅) ≤
      ((children T).map (fun y => height_key n children n y (insert T ∅))).foldl max 0 :=
    mem_le_foldl_max _ 0 _ hmem
  have heq : height_key n children n U (insert T ∅) = height_of n children U := by
    unfold height_of
    apply height_key_visited_eq n children hacy (reachSet n children U).ncard U (Nat.le_refl _)
    · have : (insert T (∅ : Finset (Fin n))).card = 1 := by simp
      omega
    · simp
    · intro z hz hr
      have hzT : z = T := by simpa using hz
      exact hacy T U hU (hzT ▸ hr)
    · intro z hz
      exact absurd hz (by simp)
  omega

/-- Embedding of `key_ctype` (lines 302-306) with the shared mutated
`visited` set rendered as state passing.  A `Sum.inl x` task is one call
`key_ctype(x, visited)`, returning the key and the grown set; a `Sum.inr l`
task is the comprehension `[key_ctype(y.type, visited) for y in l]` under
`max([0] + ...)`, threading the same set from each sibling to the next.
The fuel only bounds the recursion depth (the Python recursion terminates
because `visited` grows inside `Fin n`); `keyFuel` below always suffices,
since every guard-passing `inl` step shrinks the unvisited budget by one
and every list step costs one unit of a child list of bounded length. -/
def key_ctype_aux (n : Nat) (children : Fin n → List (Fin n)) :
    Nat → (Fin n ⊕ List (Fin n)) → Finset (Fin n) → Nat × Finset (Fin n)
  | 0, _, v => (0, v)
  | f + 1, .inl x, v =>
    if x ∈ v then (0, v)
    else
      let r := key_ctype_aux n children f (.inr (children x)) (insert x v)
      (r.1 + 1, r.2)
  | _ + 1, .inr [], v => (0, v)
  | f + 1, .inr (y :: rest), v =>
    let r1 := key_ctype_aux n children f (.inl y) v
    let r2 := key_ctype_aux n children f (.inr rest) r1.2
    (max r1.1 r2.1, r2.2)

/-- Maximum child-list length over the first `m` type ids. -/
def maxChildLenAux (n : Nat) (children : Fin n → List (Fin n)) : Nat → Nat
  | 0 => 0
  | i + 1 =>
    max (maxChildLenAux n children i)
      (if h : i < n then (children ⟨i, h⟩).length else 0)

/-- Maximum child-list length over all types. -/
def maxChildLen (n : Nat) (children : Fin n → List (Fin n)) : Nat :=
  maxChildLenAux n children n

/-- A recursion-depth bound sufficient for `key_ctype_aux` from any start. -/
def keyFuel (n : Nat) (children : Fin n → List (Fin n)) : Nat :=
  n * (maxChildLen n children + 2) + 2

/-- The faithful `key_ctype(x, visited)`: the key component of the
state-passing run at the sufficient depth bound. -/
def key_ctype (n : Nat) (children : Fin n → List (Fin n)) (x : Fin n)
    (visited : Finset (Fin n)) : Nat :=
  (key_ctype_aux n children (keyFuel n children) (.inl x) visited).1

/-- The sort key of a type as `types.sort(key=key_ctype)` computes it:
`key_ctype` from a fresh empty set (`visited=None` default). -/
def sort_key (n : Nat) (children : Fin n → List (Fin n)) (x : Fin n) : Nat :=
  key_ctype n children x ∅

/-- Embedding of `types.sort(key=key_ctype)` (line 309): Python `list.sort`
is a stable ascending sort by key, whose output is exactly that of stable
insertion sort. -/
def sortTypes (n : Nat) (children : Fin n → List (Fin n)) (ts : List (Fin n)) :
    List (Fin n) :=
  List.insertionSort (fun a b => sort_key n children a ≤ sort_key n children b) ts

theorem key_ctype_aux_inl (n : Nat) (children : Fin n → List (Fin n)) (f : Nat)
    (x : Fin n) (v : Finset (Fin n)) :
    key_ctype_aux n children (f + 1) (.inl x) v =
      if x ∈ v then (0, v)
      else ((key_ctype_aux n children f (.inr (children x)) (insert x v)).1 + 1,
        (key_ctype_aux n children f (.inr (children x)) (insert x v)).2) :=
  rfl

theorem key_ctype_aux_inr_nil (n : Nat) (children : Fin n → List (Fin n)) (f : Nat)
    (v : Finset (Fin n)) :
    key_ctype_aux n children (f + 1) (.inr []) v = (0, v) :=
  rfl

theorem key_ctype_aux_inr_cons (n : Nat) (children : Fin n → List (Fin n)) (f : Nat)
    (y : Fin n) (rest : List (Fin n)) (v : Finset (Fin n)) :
    key_ctype_aux n children (f + 1) (.inr (y :: rest)) v =
      (max (key_ctype_aux n children f (.inl y) v).1
        (key_ctype_aux n children f (.inr rest) (key_ctype_aux n children f (.inl y) v).2).1,
       (key_ctype_aux n children f (.inr rest) (key_ctype_aux n children f (.inl y) v).2).2) :=
  rfl

theorem child_len_le_maxChildLenAux (n : Nat) (children : Fin n → List (Fin n))
    (x : Fin n) : ∀ m : Nat, x.1 < m →
      (children x).length ≤ maxChildLenAux n children m := by
  intro m
  induction m with
  | zero => intro h; omega
  | succ i ihm =>
    intro h
    by_cases hxi : x.1 = i
    · have hin : i < n := hxi ▸ x.2
      have hx : (⟨i, hin⟩ : Fin n) = x := Fin.ext hxi.symm
      show (children x).length ≤ max (maxChildLenAux n children i) _
      rw [dif_pos hin, hx]
      exact Nat.le_max_right _ _
    · have hlt : x.1 < i := by omega
      exact Nat.le_trans (ihm hlt) (Nat.le_max_left _ _)

theorem child_len_le_maxChildLen (n : Nat) (children : Fin n → List (Fin n)) (x : Fin n) :
    (children x).length ≤ maxChildLen n children :=
  child_len_le_maxChildLenAux n children x n x.2

/-- Sibling subtrees are disjoint: nothing reachable from `b` is reachable
from `c`. -/
def Rdisj (n : Nat) (children : Fin n → List (Fin n)) (b c : Fin n) : Prop :=
  ∀ z, Reaches n children b z → ¬ Reaches n children c z

theorem reaches_cases (n : Nat) (children : Fin n → List (Fin n)) (x z : Fin n) :
    Reaches n children x z ↔ z = x ∨ ∃ y ∈ children x, Reaches n children y z := by
  constructor
  · intro hr
    rcases Relation.ReflTransGen.cases_head hr with heq | ⟨c, hc, hcr⟩
    · exact Or.inl heq.symm
    · exact Or.inr ⟨c, hc, hcr⟩
  · rintro (rfl | ⟨y, hy, hr⟩)
    · exact Relation.ReflTransGen.refl
    · exact reaches_trans_child n children x y z hy hr

/-- On a forest (acyclic, pairwise-disjoint sibling subtrees), the
state-passing `key_ctype_aux` computes the clean height whenever the
incoming visited set is disjoint from the subtree being explored, and its
output set adds exactly the explored subtree.  Both parts are proved at any
sufficient fuel. -/
theorem key_ctype_aux_forest (n : Nat) (children : Fin n → List (Fin n))
    (hacy : ∀ a b : Fin n, b ∈ children a → ¬ Reaches n children b a)
    (hdisj : ∀ a : Fin n, (children a).Pairwise (Rdisj n children)) :
    ∀ f : Nat,
      (∀ (x : Fin n) (v : Finset (Fin n)),
        (∀ z ∈ v, ¬ Reaches n children x z) →
        (n - v.card) * (maxChildLen n children + 2) + 2 ≤ f →
        (key_ctype_aux n children f (.inl x) v).1 = height_of n children x ∧
          ∀ z, z ∈ (key_ctype_aux n children f (.inl x) v).2 ↔
            z ∈ v ∨ Reaches n children x z) ∧
      (∀ (l : List (Fin n)) (v : Finset (Fin n)),
        l.Pairwise (Rdisj n children) →
        (∀ y ∈ l, ∀ z ∈ v, ¬ Reaches n children y z) →
        (n - v.card) * (maxChildLen n children + 2) + l.length + 2 ≤ f →
        (key_ctype_aux n children f (.inr l) v).1 =
            (l.map (height_of n children)).foldl max 0 ∧
          ∀ z, z ∈ (key_ctype_aux n children f (.inr l) v).2 ↔
            z ∈ v ∨ ∃ y ∈ l, Reaches n children y z) := by
  intro f
  induction f with
  | zero =>
    constructor
    · intro x v _ hf
      generalize (n - v.card) * (maxChildLen n children + 2) = P at hf
      omega
    · intro l v _ _ hf
      generalize (n - v.card) * (maxChildLen n children + 2) = P at hf
      omega
  | succ f ih =>
    obtain ⟨ihA, ihB⟩ := ih
    constructor
    · intro x v hv hf
      have hx : x ∉ v := fun h => hv x h Relation.ReflTransGen.refl
      have hci : (insert x v).card = v.card + 1 := Finset.card_insert_of_not_mem hx
      have hcardlt : v.card < n := by
        have h2 : (insert x v).card ≤ n := by
          simpa using Finset.card_le_card (Finset.subset_univ (insert x v))
        omega
      have hlen := child_len_le_maxChildLen n children x
      have hfuel : (n - (insert x v).card) * (maxChildLen n children + 2) +
          (children x).length + 2 ≤ f := by
        rw [hci]
        have hsub : n - (v.card + 1) + 1 = n - v.card := by omega
        have hmul : (n - v.card) * (maxChildLen n children + 2) =
            (n - (v.card + 1)) * (maxChildLen n children + 2) +
              (maxChildLen n children + 2) := by
          calc (n - v.card) * (maxChildLen n children + 2)
              = (n - (v.card + 1) + 1) * (maxChildLen n children + 2) := by rw [hsub]
            _ = _ := by rw [Nat.add_mul, Nat.one_mul]
        rw [hmul] at hf
        generalize (n - (v.card + 1)) * (maxChildLen n children + 2) = P at hf ⊢
        omega
      have hvchild : ∀ y ∈ children x, ∀ z ∈ insert x v, ¬ Reaches n children y z := by
        intro y hy z hz hr
        rcases Finset.mem_insert.mp hz with hzx | hzv
        · exact hacy x y hy (hzx ▸ hr)
        · exact hv z hzv (reaches_trans_child n children x y z hy hr)
      obtain ⟨hval, hvis⟩ := ihB (children x) (insert x v) (hdisj x) hvchild hfuel
      constructor
      · rw [key_ctype_aux_inl, if_neg hx]
        show (key_ctype_aux n children f (.inr (children x)) (insert x v)).1 + 1 = _
        rw [hval]
        have hmapc : ∀ c ∈ children x,
            height_key n children n c (insert x ∅) = height_of n children c := by
          intro c hc
          unfold height_of
          apply height_key_visited_eq n children hacy (reachSet n children c).ncard c
            (Nat.le_refl _)
          · have : (insert x (∅ : Finset (Fin n))).card = 1 := by simp
            omega
          · simp
          · intro z hz hr
            have hzx : z = x := by simpa using hz
            exact hacy x c hc (hzx ▸ hr)
          · intro z hz
            exact absurd hz (by simp)
        have hxe : (x : Fin n) ∉ (∅ : Finset (Fin n)) := by simp
        have hmaps : (children x).map (fun y => height_key n children (n + 1) y ∅) =
            (children x).map (fun y => height_key n children n y (insert x ∅)) :=
          List.map_congr_left (fun c hc => (hmapc c hc).symm)
        unfold height_of
        rw [height_key_succ, if_neg hxe, hmaps]
      · intro z
        rw [key_ctype_aux_inl, if_neg hx]
        show z ∈ (key_ctype_aux n children f (.inr (children x)) (insert x v)).2 ↔ _
        rw [hvis z, Finset.mem_insert, reaches_cases n children x z]
        constructor
        · rintro ((rfl | hzv) | hex)
          · exact Or.inr (Or.inl rfl)
          · exact Or.inl hzv
          · exact Or.inr (Or.inr hex)
        · rintro (hzv | (rfl | hex))
          · exact Or.inl (Or.inr hzv)
          · exact Or.inl (Or.inl rfl)
          · exact Or.inr hex
    · intro l v hpw hv hf
      match l with
      | [] =>
        constructor
        · rw [key_ctype_aux_inr_nil]
          rfl
        · intro z
          rw [key_ctype_aux_inr_nil]
          simp
      | y :: rest =>
        have hclean_y : ∀ z ∈ v, ¬ Reaches n children y z := hv y (List.mem_cons_self _ _)
        have hf_y : (n - v.card) * (maxChildLen n children + 2) + 2 ≤ f := by
          have hll : (y :: rest).length = rest.length + 1 := rfl
          rw [hll] at hf
          generalize (n - v.card) * (maxChildLen n children + 2) = P at hf ⊢
          omega
        obtain ⟨hval1, hvis1⟩ := ihA y v hclean_y hf_y
        obtain ⟨hhead, hrest_pw⟩ := List.pairwise_cons.mp hpw
        have hclean_rest : ∀ y' ∈ rest,
            ∀ z ∈ (key_ctype_aux n children f (.inl y) v).2,
              ¬ Reaches n children y' z := by
          intro y' hy' z hz hr
          rcases (hvis1 z).mp hz with hzv | hzy
          · exact hv y' (List.mem_cons_of_mem _ hy') z hzv hr
          · exact hhead y' hy' z hzy hr
        have hsubv : v ⊆ (key_ctype_aux n children f (.inl y) v).2 := fun z hz =>
          (hvis1 z).mpr (Or.inl hz)
        have hcardle : v.card ≤ (key_ctype_aux n children f (.inl y) v).2.card :=
          Finset.card_le_card hsubv
        have hf_rest : (n - (key_ctype_aux n children f (.inl y) v).2.card) *
            (maxChildLen n children + 2) + rest.length + 2 ≤ f := by
          have hmono : (n - (key_ctype_aux n children f (.inl y) v).2.card) *
              (maxChildLen n children + 2) ≤
              (n - v.card) * (maxChildLen n children + 2) :=
            Nat.mul_le_mul_right _ (by omega)
          have hll : (y :: rest).length = rest.length + 1 := rfl
          rw [hll] at hf
          generalize hP : (n - v.card) * (maxChildLen n children + 2) = P at hf hmono
          generalize hQ : (n - (key_ctype_aux n children f (.inl y) v).2.card) *
            (maxChildLen n children + 2) = Q at hmono ⊢
          omega
        obtain ⟨hval2, hvis2⟩ := ihB rest (key_ctype_aux n children f (.inl y) v).2
          hrest_pw hclean_rest hf_rest
        constructor
        · rw [key_ctype_aux_inr_cons]
          show max (key_ctype_aux n children f (.inl y) v).1 _ = _
          rw [hval1, hval2, List.map_cons, List.foldl_cons, Nat.zero_max,
            foldl_max_eq_max (List.map (height_of n children) rest) (height_of n children y)]
        · intro z
          rw [key_ctype_aux_inr_cons]
          show z ∈ (key_ctype_aux n children f (.inr rest)
            (key_ctype_aux n children f (.inl y) v).2).2 ↔ _
          rw [hvis2 z]
          constructor
          · rintro (hz1 | ⟨y', hy', hr⟩)
            · rcases (hvis1 z).mp hz1 with hzv | hzy
              · exact Or.inl hzv
              · exact Or.inr ⟨y, List.mem_cons_self _ _, hzy⟩
            · exact Or.inr ⟨y', List.mem_cons_of_mem _ hy', hr⟩
          · rintro (hzv | ⟨y', hy', hr⟩)
            · exact Or.inl ((hvis1 z).mpr (Or.inl hzv))
            · rcases List.mem_cons.mp hy' with heq | hy''
              · exact Or.inl ((hvis1 z).mpr (Or.inr (heq ▸ hr)))
              · exact Or.inr ⟨y', hy'', hr⟩

/-- On forest-shaped schemas the faithful `sort_key` coincides with the
clean height. -/
theorem sort_key_eq_height_of (n : Nat) (children : Fin n → List (Fin n))
    (hacy : ∀ a b : Fin n, b ∈ children a → ¬ Reaches n children b a)
    (hdisj : ∀ a : Fin n, (children a).Pairwise (Rdisj n children)) (x : Fin n) :
    sort_key n children x = height_of n children x := by
  have hfuel : (n - (∅ : Finset (Fin n)).card) * (maxChildLen n children + 2) + 2 ≤
      keyFuel n children := by
    rw [Finset.card_empty, Nat.sub_zero]
    exact Nat.le_refl _
  exact ((key_ctype_aux_forest n children hacy hdisj (keyFuel n children)).1 x ∅
    (by simp) hfuel).1

theorem sort_key_child_lt (n : Nat) (children : Fin n → List (Fin n))
    (hacy : ∀ a b : Fin n, b ∈ children a → ¬ Reaches n children b a)
    (hdisj : ∀ a : Fin n, (children a).Pairwise (Rdisj n children))
    (T U : Fin n) (hU : U ∈ children T) :
    sort_key n children U < sort_key n children T := by
  rw [sort_key_eq_height_of n children hacy hdisj U,
    sort_key_eq_height_of n children hacy hdisj T]
  exact height_of_child_lt n children hacy T U hU

/-- Claim C3 amended: for every schema whose complex-child graph is a
forest - acyclic, and the subtrees of distinct children of any type share
no complex type - every occurrence of a complex child `U` of an emitted
type `T` in the height-sorted type list comes strictly before every
occurrence of `T` (struct, count and load definitions are all emitted by
iterating this sorted list).  For recursive schemas, and for acyclic
schemas where sibling subtrees share a type, the key computation's shared
visited set can tie a parent's key with its child's and the stable sort can
leave the child after the parent - see the two counterexample theorems. -/
theorem height_sort_children_first (n : Nat) (children : Fin n → List (Fin n))
    (ts : List (Fin n))
    (hacy : ∀ a b : Fin n, b ∈ children a → ¬ Reaches n children b a)
    (hdisj : ∀ a : Fin n, (children a).Pairwise (Rdisj n children))
    (T U : Fin n) (hchild : U ∈ children T) :
    ∀ (i j : Nat) (hi : i < (sortTypes n children ts).length)
      (hj : j < (sortTypes n children ts).length),
      (sortTypes n children ts).get ⟨i, hi⟩ = U →
      (sortTypes n children ts).get ⟨j, hj⟩ = T → i < j := by
  intro i j hi hj hgi hgj
  simp only [sortTypes] at hgi hgj
  have hkey : sort_key n children U < sort_key n children T :=
    sort_key_child_lt n children hacy hdisj T U hchild
  haveI : IsTotal (Fin n) (fun a b => sort_key n children a ≤ sort_key n children b) :=
    ⟨fun a b => Nat.le_total _ _⟩
  haveI : IsTrans (Fin n) (fun a b => sort_key n children a ≤ sort_key n children b) :=
    ⟨fun _ _ _ hab hbc => Nat.le_trans hab hbc⟩
  have hsorted := List.sorted_insertionSort
    (fun a b => sort_key n children a ≤ sort_key n children b) ts
  by_contra hij
  rcases Nat.lt_or_ge j i with hlt | hge
  · have := hsorted.rel_get_of_lt (show (⟨j, hj⟩ : Fin _) < ⟨i, hi⟩ from hlt)
    rw [hgi, hgj] at this
    omega
  · have : i = j := by omega
    subst this
    rw [hgi] at hgj
    subst hgj
    omega

/-- The mutually recursive two-type schema of the C3 counterexample. -/
def exCycChildren : Fin 2 → List (Fin 2) := fun x => if x = 0 then [1] else [0]

/-- Claim C3 fails on the code for recursive types: with two mutually
recursive complex types both get cycle-cut key 2, the stable sort keeps the
original order `[0, 1]`, and the complex child `1` of type `0` is emitted
after type `0`, not strictly earlier. -/
theorem height_sort_fails_on_recursive_types :
    (1 : Fin 2) ∈ exCycChildren 0 ∧
      ¬ (∀ (i j : Nat) (hi : i < (sortTypes 2 exCycChildren [0, 1]).length)
          (hj : j < (sortTypes 2 exCycChildren [0, 1]).length),
          (sortTypes 2 exCycChildren [0, 1]).get ⟨i, hi⟩ = 1 →
          (sortTypes 2 exCycChildren [0, 1]).get ⟨j, hj⟩ = 0 → i < j) := by
  constructor
  · decide
  · intro h
    have := h 1 0 (by decide) (by decide) (by decide) (by decide)
    omega

/-- The acyclic DAG X=0 -> \x7bA=1, B=2\x7d, A -> W=4, B -> C=3, C -> W,
W -> E=5, whose sibling subtrees of X share the type W. -/
def exDagChildren : Fin 6 → List (Fin 6) := fun x =>
  if x = 0 then [1, 2]
  else if x = 1 then [4]
  else if x = 2 then [3]
  else if x = 3 then [4]
  else if x = 4 then [5]
  else []

/-- On the shared-subtree DAG the shared visited set ties the keys of type 0
and its complex child 2 (both 4, where the clean heights would be 5 and 4),
and the stable sort emits child 2 after its parent 0: the strictly-earlier
property also fails on this acyclic schema, which is why the amended claim
requires a forest. -/
theorem key_ctype_shared_subtree_ties :
    sort_key 6 exDagChildren 0 = 4 ∧ sort_key 6 exDagChildren 2 = 4 ∧
      (2 : Fin 6) ∈ exDagChildren 0 ∧
      (sortTypes 6 exDagChildren [0, 1, 2, 3, 4, 5]).get ⟨4, by decide⟩ = 0 ∧
      (sortTypes 6 exDagChildren [0, 1, 2, 3, 4, 5]).get ⟨5, by decide⟩ = 2 := by
  refine ⟨by decide, by decide, by decide, by decide, by decide⟩

/-- The acyclic two-type schema of the C3 witness. -/
def exAcyChildren : Fin 2 → List (Fin 2) := fun x => if x = 0 then [1] else []

theorem exAcy_acyclic : ∀ a b : Fin 2, b ∈ exAcyChildren a → ¬ Reaches 2 exAcyChildren b a := by
  intro a b hb hr
  fin_cases a
  · have hb1 : b = 1 := by
      simp only [exAcyChildren, if_pos rfl] at hb
      simpa using hb
    subst hb1
    rcases Relation.ReflTransGen.cases_head hr with heq | ⟨c, hc, _⟩
    · exact absurd heq (by decide)
    · simp [exAcyChildren] at hc
  · simp [exAcyChildren] at hb

theorem exAcy_forest : ∀ a : Fin 2, (exAcyChildren a).Pairwise (Rdisj 2 exAcyChildren) := by
  intro a
  fin_cases a <;> simp [exAcyChildren]

/-- Witness for the amended C3 theorem: in the acyclic (forest) schema the
child type `1` of type `0` is sorted to position 0, before type `0` at
position 1. -/
theorem height_sort_children_first_witness : (0 : Nat) < 1 :=
  height_sort_children_first 2 exAcyChildren [0, 1] exAcy_acyclic exAcy_forest 0 1 (by decide)
    0 1 (by decide) (by decide) (by decide) (by decide)

/-! ## C4: the annotation pass and the arena set
(`anno_type_element` lines 202-221, `anno_type_group` lines 224-236,
`anno_type_complex_type` lines 269-291, driver loops lines 295-299)

Elements and complex types are numbered; each `XsdElement` object of the
schema graph is one element id (an element reference is its own node).  The
state fields mirror the mutated Python attributes: `elemDone` marks elements
whose `cpp_type` got set (line 221, conversely the guard of line 203),
`typeDone` marks complex types whose `cpp_type` got set (line 271, guard of
line 270), `elemMany`/`elemOpt` are the stored flags of lines 218-219, and
`arena` is `arena_types` (line 220; a Python set, here a list up to
membership).  Registry-only effects (anonymous-type naming lines 206-209,
enum/union collection) and the `NotImplementedError`/assert aborts touch no
modeled field and are omitted; a run that aborts never reaches emission.
The fuel decreases on every recursive call; every theorem below holds for
every fuel, hence in particular for fuel large enough to complete the
traversal (Python's recursion terminates via the done-guards). -/

/-- A member of an `XsdGroup`: a nested group (with its own occurrence
flags) or an element reference. -/
inductive GTree where
  | el (e : Nat)
  | grp (occM occO : Bool) (members : List GTree)

/-- The content group of a complex type: its occurrence-derived flags
(`occurs[1] is None or > 1`, `occurs[0] == 0`) and its member list. -/
structure GroupDef where
  occM : Bool
  occO : Bool
  members : List GTree

/-- A schema as the annotator walks it. -/
structure ASchema where
  typedefs : List (Nat × GroupDef)
  global_types : List Nat
  root_elements : List Nat
  elemOccM : Nat → Bool
  elemOccO : Nat → Bool
  elemType : Nat → Nat
  typeIsComplex : Nat → Bool

/-- The content group of complex type `t` (`t.content_type` when it is an
`XsdGroup`). -/
def content (sch : ASchema) (t : Nat) : Option GroupDef :=
  (sch.typedefs.find? (fun p => p.1 == t)).map (fun p => p.2)

/-- The annotation state. -/
structure AState where
  elemDone : List Nat
  typeDone : List Nat
  elemMany : Nat → Bool
  elemOpt : Nat → Bool
  arena : List Nat

/-- The initial state: nothing annotated. -/
def initAState : AState :=
  ⟨[], [], fun _ => false, fun _ => false, []⟩

/-- Lines 218-221: store the derived flags on the element, add its type to
the arena set when `many`, and set the element's `cpp_type` (our done mark). -/
def finishElem (sch : ASchema) (st : AState) (e : Nat) (m o : Bool) : AState :=
  { st with
    elemDone := e :: st.elemDone,
    elemMany := fun x => if x = e then m else st.elemMany x,
    elemOpt := fun x => if x = e then o else st.elemOpt x,
    arena := if m then sch.elemType e :: st.arena else st.arena }

/-- A pending annotation call: the three mutually recursive entry points of
the source.  A `group` task carries the group's own flags, its (remaining)
members and the inherited flags; consuming members one at a time is the
`for e in t._group` loop of `anno_type_group`. -/
inductive ATask where
  | elem (e : Nat) (im io : Bool)
  | ctype (t : Nat)
  | group (gm go : Bool) (members : List GTree) (im io : Bool)

/-- The annotation traversal: one step function over tasks, faithful to
`anno_type_element` / `anno_type_complex_type` / `anno_type_group`. -/
def anno_type (sch : ASchema) : Nat → ATask → AState → AState
  | 0, _, st => st
  | fuel + 1, .elem e im io, st =>
    if e ∈ st.elemDone then st
    else
      let m := im || sch.elemOccM e
      let o := io || sch.elemOccO e
      if sch.typeIsComplex (sch.elemType e) then
        let st1 := anno_type sch fuel (.ctype (sch.elemType e)) st
        if sch.elemType e ∈ st1.typeDone then finishElem sch st1 e m o
        else st1
      else finishElem sch st e m o
  | fuel + 1, .ctype t, st =>
    if t ∈ st.typeDone then st
    else
      let st1 := { st with typeDone := t :: st.typeDone }
      match content sch t with
      | none => st1
      | some g =>
        if g.members.isEmpty then st1
        else anno_type sch fuel (.group g.occM g.occO g.members false false) st1
  | fuel + 1, .group gm go mems im io, st =>
    match mems with
    | [] => st
    | .el e :: rest =>
      let s1 := anno_type sch fuel (.elem e (im || gm) (io || go)) st
      anno_type sch fuel (.group gm go rest im io) s1
    | .grp gm' go' sub :: rest =>
      let s1 := anno_type sch fuel (.group gm' go' sub (im || gm) (io || go)) st
      anno_type sch fuel (.group gm go rest im io) s1

/-- The driver's annotation loops (lines 295-299): all global complex types,
then all root elements. -/
def run_anno (sch : ASchema) (fuel : Nat) : AState :=
  let st1 := sch.global_types.foldl (fun s t => anno_type sch fuel (.ctype t) s) initAState
  sch.root_elements.foldl (fun s e => anno_type sch fuel (.elem e false false) s) st1

/-- All element ids reachable through nested groups of a member list. -/
def flatElems : List GTree → List Nat
  | [] => []
  | .el e :: rest => e :: flatElems rest
  | .grp _ _ sub :: rest => flatElems sub ++ flatElems rest

/-- Every content group that contains element `e` belongs to a type that is
already annotated (so annotating reachable types cannot re-annotate `e`). -/
def OwnersDone (sch : ASchema) (st : AState) (e : Nat) : Prop :=
  ∀ p ∈ sch.typedefs, e ∈ flatElems p.2.members → p.1 ∈ st.typeDone

/-- Each element reference occurs in at most one place of the schema graph:
content groups of distinct typedef entries share no element id, and root
elements occur in no content group.  (In the Python source this is the fact
that each `XsdElement` object sits at one position of the graph.) -/
def UniqSchema (sch : ASchema) : Prop :=
  sch.typedefs.Pairwise (fun p q => ∀ e ∈ flatElems p.2.members, e ∉ flatElems q.2.members) ∧
    ∀ e ∈ sch.root_elements, ∀ p ∈ sch.typedefs, e ∉ flatElems p.2.members

/-- Claim C4's biconditional as a state invariant. -/
def ArenaInv (sch : ASchema) (st : AState) : Prop :=
  ∀ U, U ∈ st.arena ↔
    ∃ e, e ∈ st.elemDone ∧ st.elemMany e = true ∧ sch.elemType e = U

/-- Side condition a task needs for the invariant to be inductive. -/
def TaskOk (sch : ASchema) : ATask → AState → Prop
  | .elem e _ _, st => OwnersDone sch st e
  | .ctype _, _ => True
  | .group _ _ mems _ _, st => ∀ e ∈ flatElems mems, OwnersDone sch st e

/-- The task argument never mentions element `e`. -/
def Avoids (e : Nat) : ATask → Prop
  | .elem e' _ _ => e' ≠ e
  | .ctype _ => True
  | .group _ _ mems _ _ => e ∉ flatElems mems

theorem anno_type_mono (sch : ASchema) :
    ∀ (fuel : Nat) (task : ATask) (st : AState),
      (∀ x ∈ st.typeDone, x ∈ (anno_type sch fuel task st).typeDone) ∧
        (∀ x ∈ st.elemDone, x ∈ (anno_type sch fuel task st).elemDone) := by
  intro fuel
  induction fuel with
  | zero => intro task st; exact ⟨fun x hx => hx, fun x hx => hx⟩
  | succ fuel ih =>
    intro task st
    match task with
    | .elem e im io =>
      show (∀ x ∈ st.typeDone, x ∈ (anno_type sch (fuel + 1) (.elem e im io) st).typeDone) ∧ _
      unfold anno_type
      by_cases hd : e ∈ st.elemDone
      · simp only [hd, if_pos, if_true]
        exact ⟨fun x hx => hx, fun x hx => hx⟩
      · simp only [hd, if_neg, if_false, Bool.false_eq_true]
        by_cases hc : sch.typeIsComplex (sch.elemType e)
        · simp only [hc, if_pos, if_true]
          obtain ⟨iht, ihe⟩ := ih (.ctype (sch.elemType e)) st
          by_cases hdone : sch.elemType e ∈ (anno_type sch fuel (.ctype (sch.elemType e)) st).typeDone
          · simp only [hdone, if_pos, if_true]
            exact ⟨fun x hx => iht x hx, fun x hx => List.mem_cons_of_mem _ (ihe x hx)⟩
          · simp only [hdone, if_neg, if_false]
            exact ⟨iht, ihe⟩
        · simp only [hc, if_neg, if_false, Bool.false_eq_true]
          exact ⟨fun x hx => hx, fun x hx => List.mem_cons_of_mem _ hx⟩
    | .ctype t =>
      unfold anno_type
      by_cases hd : t ∈ st.typeDone
      · simp only [hd, if_pos, if_true]
        exact ⟨fun x hx => hx, fun x hx => hx⟩
      · simp only [hd, if_neg, if_false]
        cases hcon : content sch t with
        | none => exact ⟨fun x hx => List.mem_cons_of_mem _ hx, fun x hx => hx⟩
        | some g =>
          by_cases hemp : g.members.isEmpty
          · simp only [hemp, if_pos, if_true]
            exact ⟨fun x hx => List.mem_cons_of_mem _ hx, fun x hx => hx⟩
          · simp only [hemp, if_neg, if_false, Bool.false_eq_true]
            obtain ⟨iht, ihe⟩ := ih (.group g.occM g.occO g.members false false)
              { st with typeDone := t :: st.typeDone }
            exact ⟨fun x hx => iht x (List.mem_cons_of_mem _ hx), fun x hx => ihe x hx⟩
    | .group gm go mems im io =>
      unfold anno_type
      match mems with
      | [] => exact ⟨fun x hx => hx, fun x hx => hx⟩
      | .el e :: rest =>
        obtain ⟨iht1, ihe1⟩ := ih (.elem e (im || gm) (io || go)) st
        obtain ⟨iht2, ihe2⟩ := ih (.group gm go rest im io)
          (anno_type sch fuel (.elem e (im || gm) (io || go)) st)
        exact ⟨fun x hx => iht2 x (iht1 x hx), fun x hx => ihe2 x (ihe1 x hx)⟩
      | .grp gm' go' sub :: rest =>
        obtain ⟨iht1, ihe1⟩ := ih (.group gm' go' sub (im || gm) (io || go)) st
        obtain ⟨iht2, ihe2⟩ := ih (.group gm go rest im io)
          (anno_type sch fuel (.group gm' go' sub (im || gm) (io || go)) st)
        exact ⟨fun x hx => iht2 x (iht1 x hx), fun x hx => ihe2 x (ihe1 x hx)⟩

theorem OwnersDone_mono (sch : ASchema) (st st' : AState)
    (h : ∀ x ∈ st.typeDone, x ∈ st'.typeDone) (e : Nat) :
    OwnersDone sch st e → OwnersDone sch st' e :=
  fun ho p hp he => h _ (ho p hp he)

theorem anno_type_not_done (sch : ASchema) (e : Nat) :
    ∀ (fuel : Nat) (task : ATask) (st : AState),
      OwnersDone sch st e → Avoids e task → e ∉ st.elemDone →
      e ∉ (anno_type sch fuel task st).elemDone := by
  intro fuel
  induction fuel with
  | zero => intro task st _ _ hnd; exact hnd
  | succ fuel ih =>
    intro task st hown havoid hnd
    match task with
    | .elem e' im io =>
      have hne : e' ≠ e := havoid
      unfold anno_type
      by_cases hd : e' ∈ st.elemDone
      · simp only [hd, if_pos, if_true]; exact hnd
      · simp only [hd, if_neg, if_false, Bool.false_eq_true]
        by_cases hc : sch.typeIsComplex (sch.elemType e')
        · simp only [hc, if_pos, if_true]
          have hnd1 : e ∉ (anno_type sch fuel (.ctype (sch.elemType e')) st).elemDone :=
            ih (.ctype (sch.elemType e')) st hown trivial hnd
          by_cases hdone : sch.elemType e' ∈
              (anno_type sch fuel (.ctype (sch.elemType e')) st).typeDone
          · simp only [hdone, if_pos, if_true]
            intro hmem
            rcases List.mem_cons.mp hmem with heq | hmem'
            · exact hne heq.symm
            · exact hnd1 hmem'
          · simp only [hdone, if_neg, if_false]
            exact hnd1
        · simp only [hc, if_neg, if_false, Bool.false_eq_true]
          intro hmem
          rcases List.mem_cons.mp hmem with heq | hmem'
          · exact hne heq.symm
          · exact hnd hmem'
    | .ctype t =>
      unfold anno_type
      by_cases hd : t ∈ st.typeDone
      · simp only [hd, if_pos, if_true]; exact hnd
      · simp only [hd, if_neg, if_false]
        cases hcon : content sch t with
        | none => exact hnd
        | some g =>
          by_cases hemp : g.members.isEmpty
          · simp only [hemp, if_pos, if_true]; exact hnd
          · simp only [hemp, if_neg, if_false, Bool.false_eq_true]
            have hnotin : e ∉ flatElems g.members := by
              intro hin
              obtain ⟨p, hpfind⟩ : ∃ p, sch.typedefs.find? (fun p => p.1 == t) = some p := by
                cases hf : sch.typedefs.find? (fun p => p.1 == t) with
                | none => rw [content, hf] at hcon; exact absurd hcon (by simp)
                | some p => exact ⟨p, rfl⟩
              have hpmem : p ∈ sch.typedefs := List.mem_of_find?_eq_some hpfind
              have hpt : p.1 = t := by
                have := List.find?_some hpfind
                simpa using this
              have hpg : p.2 = g := by
                rw [content, hpfind] at hcon
                simpa using hcon
              have := hown p hpmem (by rw [hpg]; exact hin)
              rw [hpt] at this
              exact hd this
            apply ih (.group g.occM g.occO g.members false false)
              { st with typeDone := t :: st.typeDone }
            · exact OwnersDone_mono sch st _ (fun x hx => List.mem_cons_of_mem _ hx) e hown
            · exact hnotin
            · exact hnd
    | .group gm go mems im io =>
      unfold anno_type
      match mems with
      | [] => exact hnd
      | .el e' :: rest =>
        have hfl : e ∉ flatElems (GTree.el e' :: rest) := havoid
        have hne : e' ≠ e := by
          intro heq
          exact hfl (by rw [heq, flatElems]; exact List.mem_cons_self _ _)
        have hrest : e ∉ flatElems rest := by
          intro hin
          exact hfl (by rw [flatElems]; exact List.mem_cons_of_mem _ hin)
        have h1 := ih (.elem e' (im || gm) (io || go)) st hown hne hnd
        apply ih (.group gm go rest im io) _ _ hrest h1
        exact OwnersDone_mono sch st _
          (anno_type_mono sch fuel (.elem e' (im || gm) (io || go)) st).1 e hown
      | .grp gm' go' sub :: rest =>
        have hfl : e ∉ flatElems (GTree.grp gm' go' sub :: rest) := havoid
        have hsub : e ∉ flatElems sub := by
          intro hin
          exact hfl (by rw [flatElems]; exact List.mem_append_left _ hin)
        have hrest : e ∉ flatElems rest := by
          intro hin
          exact hfl (by rw [flatElems]; exact List.mem_append_right _ hin)
        have h1 := ih (.group gm' go' sub (im || gm) (io || go)) st hown hsub hnd
        apply ih (.group gm go rest im io) _ _ hrest h1
        exact OwnersDone_mono sch st _
          (anno_type_mono sch fuel (.group gm' go' sub (im || gm) (io || go)) st).1 e hown

theorem finishElem_ArenaInv (sch : ASchema) (st : AState) (e : Nat) (m o : Bool)
    (he : e ∉ st.elemDone) (hInv : ArenaInv sch st) :
    ArenaInv sch (finishElem sch st e m o) := by
  intro U
  cases m with
  | false =>
    show U ∈ st.arena ↔ _
    constructor
    · intro hU
      obtain ⟨e', hd, hm', ht⟩ := (hInv U).mp hU
      have hne : e' ≠ e := fun heq => he (heq ▸ hd)
      exact ⟨e', List.mem_cons_of_mem _ hd, by simpa [finishElem, hne] using hm', ht⟩
    · rintro ⟨e', he', hm', ht⟩
      rcases List.mem_cons.mp he' with heq | hd
      · subst heq
        simp [finishElem] at hm'
      · have hne : e' ≠ e := fun heq => he (heq ▸ hd)
        simp only [finishElem, if_neg hne] at hm'
        exact (hInv U).mpr ⟨e', hd, hm', ht⟩
  | true =>
    show U ∈ sch.elemType e :: st.arena ↔ _
    constructor
    · intro hU
      rcases List.mem_cons.mp hU with heq | hU'
      · exact ⟨e, List.mem_cons_self _ _, by simp [finishElem], heq.symm⟩
      · obtain ⟨e', hd, hm', ht⟩ := (hInv U).mp hU'
        have hne : e' ≠ e := fun heq => he (heq ▸ hd)
        exact ⟨e', List.mem_cons_of_mem _ hd, by simpa [finishElem, hne] using hm', ht⟩
    · rintro ⟨e', he', hm', ht⟩
      rcases List.mem_cons.mp he' with heq | hd
      · subst heq
        exact ht ▸ List.mem_cons_self _ _
      · have hne : e' ≠ e := fun heq => he (heq ▸ hd)
        simp only [finishElem, if_neg hne] at hm'
        exact List.mem_cons_of_mem _ ((hInv U).mpr ⟨e', hd, hm', ht⟩)

theorem anno_type_preserves (sch : ASchema) (huniq : UniqSchema sch) :
    ∀ (fuel : Nat) (task : ATask) (st : AState),
      ArenaInv sch st → TaskOk sch task st → ArenaInv sch (anno_type sch fuel task st) := by
  intro fuel
  induction fuel with
  | zero => intro task st hInv _; exact hInv
  | succ fuel ih =>
    intro task st hInv htask
    match task with
    | .elem e im io =>
      have hown : OwnersDone sch st e := htask
      unfold anno_type
      by_cases hd : e ∈ st.elemDone
      · simp only [hd, if_pos, if_true]; exact hInv
      · simp only [hd, if_neg, if_false, Bool.false_eq_true]
        by_cases hc : sch.typeIsComplex (sch.elemType e)
        · simp only [hc, if_pos, if_true]
          have hInv1 := ih (.ctype (sch.elemType e)) st hInv trivial
          have hnd1 : e ∉ (anno_type sch fuel (.ctype (sch.elemType e)) st).elemDone :=
            anno_type_not_done sch e fuel (.ctype (sch.elemType e)) st hown trivial hd
          by_cases hdone : sch.elemType e ∈
              (anno_type sch fuel (.ctype (sch.elemType e)) st).typeDone
          · simp only [hdone, if_pos, if_true]
            exact finishElem_ArenaInv sch _ e _ _ hnd1 hInv1
          · simp only [hdone, if_neg, if_false]
            exact hInv1
        · simp only [hc, if_neg, if_false, Bool.false_eq_true]
          exact finishElem_ArenaInv sch st e _ _ hd hInv
    | .ctype t =>
      unfold anno_type
      by_cases hd : t ∈ st.typeDone
      · simp only [hd, if_pos, if_true]; exact hInv
      · simp only [hd, if_neg, if_false]
        have hInv1 : ArenaInv sch { st with typeDone := t :: st.typeDone } := hInv
        cases hcon : content sch t with
        | none => exact hInv1
        | some g =>
          by_cases hemp : g.members.isEmpty
          · simp only [hemp, if_pos, if_true]; exact hInv1
          · simp only [hemp, if_neg, if_false, Bool.false_eq_true]
            apply ih (.group g.occM g.occO g.members false false) _ hInv1
            intro x hx p hp hpe
            obtain ⟨q, hqfind⟩ : ∃ q, sch.typedefs.find? (fun p => p.1 == t) = some q := by
              cases hf : sch.typedefs.find? (fun p => p.1 == t) with
              | none => rw [content, hf] at hcon; exact absurd hcon (by simp)
              | some q => exact ⟨q, rfl⟩
            have hqmem : q ∈ sch.typedefs := List.mem_of_find?_eq_some hqfind
            have hqt : q.1 = t := by
              have := List.find?_some hqfind
              simpa using this
            have hqg : q.2 = g := by
              rw [content, hqfind] at hcon
              simpa using hcon
            by_cases hpq : p = q
            · show p.1 ∈ t :: st.typeDone
              rw [hpq, hqt]
              exact List.mem_cons_self _ _
            · have hsym : Symmetric (fun p q : Nat × GroupDef =>
                  ∀ e ∈ flatElems p.2.members, e ∉ flatElems q.2.members) := by
                intro a b h x hxb hxa
                exact h x hxa hxb
              have hdisj := (huniq.1.forall hsym) hp hqmem hpq
              exact absurd (hqg ▸ hx) (hdisj x hpe)
    | .group gm go mems im io =>
      unfold anno_type
      match mems with
      | [] => exact hInv
      | .el e :: rest =>
        have h1 : OwnersDone sch st e :=
          htask e (by rw [flatElems]; exact List.mem_cons_self _ _)
        have hInv1 := ih (.elem e (im || gm) (io || go)) st hInv h1
        apply ih (.group gm go rest im io) _ hInv1
        intro x hx
        exact OwnersDone_mono sch st _
          (anno_type_mono sch fuel (.elem e (im || gm) (io || go)) st).1 x
          (htask x (by rw [flatElems]; exact List.mem_cons_of_mem _ hx))
      | .grp gm' go' sub :: rest =>
        have h1 : ∀ x ∈ flatElems sub, OwnersDone sch st x := fun x hx =>
          htask x (by rw [flatElems]; exact List.mem_append_left _ hx)
        have hInv1 := ih (.group gm' go' sub (im || gm) (io || go)) st hInv h1
        apply ih (.group gm go rest im io) _ hInv1
        intro x hx
        exact OwnersDone_mono sch st _
          (anno_type_mono sch fuel (.group gm' go' sub (im || gm) (io || go)) st).1 x
          (htask x (by rw [flatElems]; exact List.mem_append_right _ hx))

theorem run_anno_inv (sch : ASchema) (huniq : UniqSchema sch) (fuel : Nat) :
    ArenaInv sch (run_anno sch fuel) := by
  unfold run_anno
  have hinit : ArenaInv sch initAState := by
    intro U
    constructor
    · intro h
      exact absurd h (by simp [initAState])
    · rintro ⟨e, he, _, _⟩
      exact absurd he (by simp [initAState])
  have h1 : ∀ (l : List Nat) (st : AState), ArenaInv sch st →
      ArenaInv sch (l.foldl (fun s t => anno_type sch fuel (.ctype t) s) st) := by
    intro l
    induction l with
    | nil => intro st h; exact h
    | cons t rest ihl =>
      intro st h
      exact ihl _ (anno_type_preserves sch huniq fuel (.ctype t) st h trivial)
  have h2 : ∀ (l : List Nat),
      (∀ e ∈ l, ∀ p ∈ sch.typedefs, e ∉ flatElems p.2.members) →
      ∀ st, ArenaInv sch st →
      ArenaInv sch (l.foldl (fun s e => anno_type sch fuel (.elem e false false) s) st) := by
    intro l
    induction l with
    | nil => intro _ st h; exact h
    | cons e rest ihl =>
      intro hroot st h
      apply ihl (fun x hx => hroot x (List.mem_cons_of_mem _ hx))
      apply anno_type_preserves sch huniq fuel (.elem e false false) st h
      intro p hp hpe
      exact absurd hpe (hroot e (List.mem_cons_self _ _) p hp)
  exact h2 sch.root_elements huniq.2 _ (h1 sch.global_types initAState hinit)

/-- Claim C4: after the annotation pass (at any fuel, hence in particular
after it completes), a type `U` is in the arena set iff some annotated
element reference to `U` carries a stored `many = true` flag.  The
`UniqSchema` hypothesis says each element reference is one node of the graph
(it occurs at one position), which is how the Python object graph is shaped;
recursive references of `U` inside its own definition are covered (see the
witness). -/
theorem arena_iff_many_ref (sch : ASchema) (huniq : UniqSchema sch) (fuel : Nat) (U : Nat) :
    U ∈ (run_anno sch fuel).arena ↔
      ∃ e, e ∈ (run_anno sch fuel).elemDone ∧
        (run_anno sch fuel).elemMany e = true ∧ sch.elemType e = U :=
  run_anno_inv sch huniq fuel U

/-- A self-recursive schema: root element 0 of complex type 1, whose content
is a many-occurrence group containing element 10, itself of type 1. -/
def ex4_sch : ASchema :=
  ⟨[(1, ⟨true, false, [GTree.el 10]⟩)], [1], [0],
    fun _ => false, fun _ => false,
    fun e => if e = 0 then 1 else if e = 10 then 1 else 99,
    fun t => t == 1⟩

theorem ex4_uniq : UniqSchema ex4_sch := by
  constructor
  · simp [ex4_sch]
  · intro e he p hp
    simp only [ex4_sch, List.mem_singleton] at he hp
    subst he
    subst hp
    simp [flatElems]

/-- Witness for C4 at the self-recursive schema: type 1 lands in the arena
set because its inner reference (element 10) is many. -/
theorem arena_iff_many_ref_witness : 1 ∈ (run_anno ex4_sch 10).arena :=
  (arena_iff_many_ref ex4_sch ex4_uniq 10 1).mpr ⟨10, by decide, by decide, by decide⟩

end Uxsd
